import Mathlib

/-!
# Verification of the vector-mcp indexing pipeline

Shallow embedding of the core of the `vector-mcp` repository:

* `FileIndexer.chunkContent`, `FileIndexer.isTextFile`, `FileIndexer.indexDirectory`
  (the change-detection & chunking engine and the indexing orchestrator),
* `JobManager` (job lifecycle, progress, logs, garbage collection),
* `MongoVectorStore` (chunk storage, delta metadata, cosine-similarity search).

JavaScript numbers are modelled as `Nat`/`Int`/`ℚ`, JS `Date` values as `Int`
timestamps, fallible external calls (`fs`, `glob`, Mongo, embeddings) as
`Except String`-valued oracles supplied in an environment record, and the
side effects on the document store as an explicit store state plus a trace
of store operations.
-/

namespace VectorMCP

/-! ## Chunking (`FileIndexer.chunkContent`)

`content.split('\n')` in JS splits at every `'\n'` occurrence and always
returns at least one (possibly empty) part; `splitNl` mirrors that on the
character list of the string. -/

def splitNl : List Char → List (List Char)
  | [] => [[]]
  | c :: cs =>
    if c = '\n' then [] :: splitNl cs
    else
      match splitNl cs with
      | [] => [[c]]
      | l :: ls => (c :: l) :: ls

/-- JS `content.split('\n')`. -/
def splitLines (s : String) : List String :=
  (splitNl s.data).map (fun l => String.mk l)

structure Chunk where
  content : String
  startLine : Nat
  endLine : Nat
deriving Repr, DecidableEq

/-- `const maxChunkSize = 2000` in `chunkContent`. -/
def maxChunkSize : Nat := 2000

/-- The chunk header `File: ${filename}\nLines ${startLine}-${endLine}:\n\n`. -/
def chunkHeader (filename : String) (s e : Nat) : String :=
  "File: " ++ filename ++ "\nLines " ++ toString s ++ "-" ++ toString e ++ ":\n\n"

/-- Loop state of the `for (const line of lines)` loop in `chunkContent`:
`chunks`, `currentChunk`, `startLine`, `currentLine`. -/
structure ChunkState where
  chunks : List Chunk
  currentChunk : String
  startLine : Nat
  currentLine : Nat
deriving Repr, DecidableEq

/-- One iteration of the line loop of `chunkContent`. -/
def chunkStep (filename : String) (st : ChunkState) (line : String) : ChunkState :=
  if st.currentChunk.length + line.length > maxChunkSize ∧ 0 < st.currentChunk.length then
    { chunks := st.chunks ++
        [⟨chunkHeader filename st.startLine (st.currentLine - 1) ++ st.currentChunk,
          st.startLine, st.currentLine - 1⟩],
      currentChunk := line ++ "\n",
      startLine := st.currentLine,
      currentLine := st.currentLine + 1 }
  else
    { st with currentChunk := st.currentChunk ++ line ++ "\n",
              currentLine := st.currentLine + 1 }

def chunkInit : ChunkState := ⟨[], "", 1, 1⟩

/-- The loop of `chunkContent` run over all lines of `content`. -/
def chunkFold (content filename : String) : ChunkState :=
  (splitLines content).foldl (chunkStep filename) chunkInit

/-- JS `String.prototype.trim`: strips leading and trailing whitespace
(space, tab, newline, carriage return, vertical tab, form feed). -/
def jsWhitespace (c : Char) : Bool :=
  c = ' ' || c = '\t' || c = '\n' || c = '\r' || c = '\x0b' || c = '\x0c'

def jsTrim (s : String) : String :=
  String.mk (((s.data.dropWhile jsWhitespace).reverse.dropWhile jsWhitespace).reverse)

/-- `chunkContent` up to (and including) the trailing
`if (currentChunk.trim()) chunks.push(...)`, before the at-least-one-chunk
fallback. -/
def chunkContentCore (content filename : String) : List Chunk :=
  if jsTrim (chunkFold content filename).currentChunk ≠ "" then
    (chunkFold content filename).chunks ++
      [⟨chunkHeader filename (chunkFold content filename).startLine
          ((chunkFold content filename).currentLine - 1) ++
          (chunkFold content filename).currentChunk,
        (chunkFold content filename).startLine,
        (chunkFold content filename).currentLine - 1⟩]
  else (chunkFold content filename).chunks

/-- `FileIndexer.chunkContent(content, filename)`. -/
def chunkContent (content filename : String) : List Chunk :=
  if 0 < (chunkContentCore content filename).length then chunkContentCore content filename
  else [⟨"File: " ++ filename ++ "\n\n" ++ content, 1, (splitLines content).length⟩]

/-! ### Coverage predicate

`covers cs s t` states that the chunks `cs`, in order, cover exactly the
line interval `[s, t-1]`: the first chunk starts at `s`, every chunk's range
is nonempty, each subsequent chunk starts right after the previous one ends,
and the last chunk ends at `t - 1`. -/

def covers : List Chunk → Nat → Nat → Prop
  | [], s, t => t = s
  | c :: cs, s, t => c.startLine = s ∧ s ≤ c.endLine ∧ covers cs (c.endLine + 1) t

def decCovers : (cs : List Chunk) → (s t : Nat) → Decidable (covers cs s t)
  | [], s, t => decidable_of_iff (t = s) (by simp [covers])
  | c :: cs, s, t =>
    have : Decidable (covers cs (c.endLine + 1) t) := decCovers cs (c.endLine + 1) t
    decidable_of_iff (c.startLine = s ∧ s ≤ c.endLine ∧ covers cs (c.endLine + 1) t)
      (by simp [covers])

instance : ∀ (cs : List Chunk) (s t : Nat), Decidable (covers cs s t) := decCovers

/-- The line following the last line covered by the chunk list, starting
from `s`: for a contiguous chunk list this equals `lastEndLine + 1`. -/
def coverEnd (cs : List Chunk) (s : Nat) : Nat :=
  cs.foldl (fun _ c => c.endLine + 1) s

theorem coverEnd_nil (s : Nat) : coverEnd [] s = s := rfl

theorem coverEnd_cons (c : Chunk) (cs : List Chunk) (s : Nat) :
    coverEnd (c :: cs) s = coverEnd cs (c.endLine + 1) := rfl

theorem coverEnd_append (cs ds : List Chunk) (s : Nat) :
    coverEnd (cs ++ ds) s = coverEnd ds (coverEnd cs s) := by
  induction cs generalizing s with
  | nil => rfl
  | cons c cs ih => simp [coverEnd_cons, ih]

theorem covers_append {cs ds : List Chunk} {s t u : Nat}
    (h1 : covers cs s t) (h2 : covers ds t u) : covers (cs ++ ds) s u := by
  induction cs generalizing s with
  | nil => simpa [covers] using h1 ▸ h2
  | cons c cs ih =>
    obtain ⟨hs, hle, hrest⟩ := h1
    exact ⟨hs, hle, ih hrest⟩

theorem covers_coverEnd {cs : List Chunk} {s t : Nat} (h : covers cs s t) :
    coverEnd cs s = t := by
  induction cs generalizing s with
  | nil => simpa [covers, coverEnd_nil] using h.symm
  | cons c cs ih =>
    obtain ⟨_, _, hrest⟩ := h
    simpa [coverEnd_cons] using ih hrest

/-! ### Loop invariant for `chunkStep` -/

/-- Invariant of the `chunkContent` line loop. -/
def ChunkInv (st : ChunkState) : Prop :=
  covers st.chunks 1 st.startLine ∧
  st.startLine ≤ st.currentLine ∧
  1 ≤ st.startLine ∧
  (st.currentChunk ≠ "" → st.startLine < st.currentLine) ∧
  (st.currentChunk = "" → st.startLine = st.currentLine)

theorem chunkInit_inv : ChunkInv chunkInit := by
  refine ⟨rfl, le_refl 1, le_refl 1, ?_, fun _ => rfl⟩
  intro h; exact absurd rfl h

theorem append_newline_ne_empty (s line : String) : s ++ line ++ "\n" ≠ "" := by
  intro h
  have : (s ++ line ++ "\n").data = ("" : String).data := by rw [h]
  simp [String.data_append] at this

theorem newline_append_ne_empty (line : String) : line ++ "\n" ≠ "" := by
  intro h
  have : (line ++ "\n").data = ("" : String).data := by rw [h]
  simp [String.data_append] at this

theorem chunkStep_inv (filename line : String) (st : ChunkState)
    (h : ChunkInv st) : ChunkInv (chunkStep filename st line) := by
  obtain ⟨hcov, hle, hpos, hne, heq⟩ := h
  unfold chunkStep
  by_cases hc : st.currentChunk.length + line.length > maxChunkSize ∧ 0 < st.currentChunk.length
  · have hnz : st.currentChunk ≠ "" := by
      intro h0
      have h2 := hc.2
      rw [h0] at h2
      simp [String.length] at h2
    have hlt : st.startLine < st.currentLine := hne hnz
    rw [if_pos hc]
    refine ⟨?_, ?_, ?_, ?_, ?_⟩
    · show covers (st.chunks ++ [⟨_, st.startLine, st.currentLine - 1⟩]) 1 st.currentLine
      refine covers_append hcov ⟨rfl, show st.startLine ≤ st.currentLine - 1 by omega, ?_⟩
      show covers [] (st.currentLine - 1 + 1) st.currentLine
      show st.currentLine = st.currentLine - 1 + 1
      omega
    · exact Nat.le_succ_of_le (le_refl _)
    · show 1 ≤ st.currentLine
      omega
    · intro _
      exact Nat.lt_succ_self _
    · intro habs
      exact absurd habs (newline_append_ne_empty line)
  · rw [if_neg hc]
    refine ⟨hcov, Nat.le_succ_of_le hle, hpos, fun _ => Nat.lt_succ_of_le hle, ?_⟩
    intro habs
    exact absurd habs (by
      show st.currentChunk ++ line ++ "\n" ≠ ""
      exact append_newline_ne_empty st.currentChunk line)

theorem chunkFoldl_inv (filename : String) (lines : List String) (st : ChunkState)
    (h : ChunkInv st) : ChunkInv (lines.foldl (chunkStep filename) st) := by
  induction lines generalizing st with
  | nil => exact h
  | cons l ls ih => exact ih _ (chunkStep_inv filename l st h)

theorem chunkFold_inv (content filename : String) :
    ChunkInv (chunkFold content filename) :=
  chunkFoldl_inv filename (splitLines content) chunkInit chunkInit_inv

/-- Each loop iteration advances `currentLine` by exactly one. -/
theorem chunkFoldl_currentLine (filename : String) (lines : List String) (st : ChunkState) :
    (lines.foldl (chunkStep filename) st).currentLine = st.currentLine + lines.length := by
  induction lines generalizing st with
  | nil => rfl
  | cons l ls ih =>
    rw [List.foldl_cons, ih]
    unfold chunkStep
    by_cases hc : st.currentChunk.length + l.length > maxChunkSize ∧ 0 < st.currentChunk.length
    · rw [if_pos hc]; simp; omega
    · rw [if_neg hc]; simp; omega

theorem chunkFold_currentLine (content filename : String) :
    (chunkFold content filename).currentLine = 1 + (splitLines content).length :=
  chunkFoldl_currentLine filename (splitLines content) chunkInit

theorem splitNl_ne_nil (l : List Char) : splitNl l ≠ [] := by
  cases l with
  | nil => simp [splitNl]
  | cons c cs =>
    unfold splitNl
    by_cases h : c = '\n'
    · simp [h]
    · rw [if_neg h]
      cases splitNl cs <;> simp

theorem splitLines_length_pos (s : String) : 0 < (splitLines s).length := by
  unfold splitLines
  rw [List.length_map]
  cases h : splitNl s.data with
  | nil => exact absurd h (splitNl_ne_nil s.data)
  | cons a l => simp

/-- Coverage property of `chunkContent`: the chunk list is contiguous from
line 1 (so ascending and non-overlapping), never empty, ends no later than
the last line, and reaches the last line whenever the loop's trailing
remainder is pushed or the whole-file fallback fires. -/
theorem chunkContent_spec (content filename : String) :
    covers (chunkContent content filename) 1 (coverEnd (chunkContent content filename) 1) ∧
    coverEnd (chunkContent content filename) 1 ≤ (splitLines content).length + 1 ∧
    chunkContent content filename ≠ [] ∧
    ((chunkContentCore content filename = [] ∨
        jsTrim (chunkFold content filename).currentChunk ≠ "") →
      coverEnd (chunkContent content filename) 1 = (splitLines content).length + 1) := by
  obtain ⟨hcov, hle, hpos, hne, heq⟩ := chunkFold_inv content filename
  have hcl := chunkFold_currentLine content filename
  have hlpos := splitLines_length_pos content
  by_cases hcore : chunkContentCore content filename = []
  · -- fallback single whole-file chunk
    have hcc : chunkContent content filename =
        [⟨"File: " ++ filename ++ "\n\n" ++ content, 1, (splitLines content).length⟩] := by
      unfold chunkContent
      rw [hcore]
      simp
    rw [hcc]
    refine ⟨⟨rfl, hlpos, ?_⟩, ?_, by simp, fun _ => ?_⟩
    · show covers [] ((splitLines content).length + 1) (coverEnd _ 1)
      rfl
    · show coverEnd _ 1 ≤ _
      simp [coverEnd]
    · simp [coverEnd]
  · -- the core list is returned as is
    have hcc : chunkContent content filename = chunkContentCore content filename := by
      unfold chunkContent
      rw [if_pos (by
        cases h : chunkContentCore content filename with
        | nil => exact absurd h hcore
        | cons a l => simp)]
    by_cases htrim : jsTrim (chunkFold content filename).currentChunk ≠ ""
    · -- trailing chunk pushed: full coverage up to the last line
      have hcore2 : chunkContentCore content filename =
          (chunkFold content filename).chunks ++
            [⟨chunkHeader filename (chunkFold content filename).startLine
                ((chunkFold content filename).currentLine - 1) ++
                (chunkFold content filename).currentChunk,
              (chunkFold content filename).startLine,
              (chunkFold content filename).currentLine - 1⟩] := by
        unfold chunkContentCore
        rw [if_pos htrim]
      have hnz : (chunkFold content filename).currentChunk ≠ "" := by
        intro h0
        apply htrim
        rw [h0]
        rfl
      have hlt := hne hnz
      have hcovFull : covers (chunkContent content filename) 1
          (chunkFold content filename).currentLine := by
        rw [hcc, hcore2]
        refine covers_append hcov
          ⟨rfl, show (chunkFold content filename).startLine ≤
              (chunkFold content filename).currentLine - 1 by omega, ?_⟩
        show covers [] ((chunkFold content filename).currentLine - 1 + 1) _
        show (chunkFold content filename).currentLine =
          (chunkFold content filename).currentLine - 1 + 1
        omega
      have hend := covers_coverEnd hcovFull
      rw [hend]
      refine ⟨hcovFull, by omega, ?_, fun _ => by omega⟩
      rw [hcc, hcore2]
      simp
    · -- trailing remainder dropped: coverage stops at `startLine - 1`
      have hcore2 : chunkContentCore content filename =
          (chunkFold content filename).chunks := by
        unfold chunkContentCore
        rw [if_neg htrim]
      have hcovPart : covers (chunkContent content filename) 1
          (chunkFold content filename).startLine := by
        rw [hcc, hcore2]; exact hcov
      have hend := covers_coverEnd hcovPart
      rw [hend]
      refine ⟨hcovPart, by omega, ?_, fun hor => ?_⟩
      · rw [hcc]
        exact hcore
      · rcases hor with h | h
        · exact absurd h hcore
        · exact absurd h htrim

/-! ### A concrete file whose trailing whitespace lines are not covered -/

theorem splitNl_replicate_newline (n : Nat) :
    splitNl (List.replicate n 'a' ++ ['\n']) = [List.replicate n 'a', []] := by
  induction n with
  | zero => rfl
  | succ n ih =>
    rw [List.replicate_succ, List.cons_append]
    unfold splitNl
    rw [if_neg (by decide), ih]

/-- A 2001-character line followed by a final newline: the first line closes a
chunk, and the remaining empty line is whitespace-only, so it is dropped. -/
def badContent : String := String.mk (List.replicate 2001 'a') ++ "\n"

theorem badContent_lines :
    splitLines badContent = [String.mk (List.replicate 2001 'a'), ""] := by
  unfold splitLines badContent
  have hdata : (String.mk (List.replicate 2001 'a') ++ "\n").data =
      List.replicate 2001 'a' ++ ['\n'] := by
    rw [String.data_append]
  rw [hdata, splitNl_replicate_newline]
  rfl

theorem replicate_length_2001 : (String.mk (List.replicate 2001 'a')).length = 2001 := by
  show (List.replicate 2001 'a').length = 2001
  rw [List.length_replicate]

theorem badContent_fold :
    chunkFold badContent "f" =
      ⟨[⟨chunkHeader "f" 1 1 ++ ("" ++ String.mk (List.replicate 2001 'a') ++ "\n"), 1, 1⟩],
        "" ++ "\n", 2, 3⟩ := by
  unfold chunkFold
  rw [badContent_lines]
  rw [List.foldl_cons, List.foldl_cons, List.foldl_nil]
  have step1 : chunkStep "f" chunkInit (String.mk (List.replicate 2001 'a')) =
      ⟨[], "" ++ String.mk (List.replicate 2001 'a') ++ "\n", 1, 2⟩ := by
    unfold chunkStep chunkInit
    rw [if_neg (by
      intro h
      have h2 := h.2
      simp [String.length] at h2)]
  rw [step1]
  unfold chunkStep
  rw [if_pos (by
    constructor
    · rw [String.length_append, String.length_append, replicate_length_2001]
      show 0 + 2001 + 1 + String.length "" > maxChunkSize
      decide
    · rw [String.length_append, String.length_append, replicate_length_2001]
      show 0 < 0 + 2001 + 1
      decide)]
  rfl

theorem badContent_chunks :
    chunkContent badContent "f" =
      [⟨chunkHeader "f" 1 1 ++ ("" ++ String.mk (List.replicate 2001 'a') ++ "\n"), 1, 1⟩] := by
  have hcore : chunkContentCore badContent "f" =
      [⟨chunkHeader "f" 1 1 ++ ("" ++ String.mk (List.replicate 2001 'a') ++ "\n"), 1, 1⟩] := by
    unfold chunkContentCore
    rw [badContent_fold]
    rw [if_neg (by
      show ¬ jsTrim ("" ++ "\n") ≠ ""
      decide)]
  unfold chunkContent
  rw [hcore]
  rfl

/-- C3 (counterexample): the claim "for every indexed file, the chunks
produced by chunkContent have line ranges whose union covers [1, totalLines]
with no gaps" is false: for a 2001-character line followed by a newline, the
file has 2 lines but the single produced chunk covers only line 1 — the
whitespace-only tail after the closed chunk is dropped by the
`if (currentChunk.trim())` test. -/
theorem claim_C3_counterexample :
    (splitLines badContent).length = 2 ∧
    (chunkContent badContent "f").map (fun c => (c.startLine, c.endLine)) = [(1, 1)] ∧
    ¬ covers (chunkContent badContent "f") 1 ((splitLines badContent).length + 1) := by
  have hlen : (splitLines badContent).length = 2 := by rw [badContent_lines]; rfl
  refine ⟨hlen, by rw [badContent_chunks]; rfl, ?_⟩
  rw [badContent_chunks, hlen]
  intro h
  obtain ⟨-, -, hrest⟩ := h
  exact absurd hrest (by decide)

/-- C3 (amended): the chunks of `chunkContent` are contiguous starting at
line 1 (hence ascending and non-overlapping with no internal gaps), the list
is never empty and never extends past the last line; the union covers the
full interval `[1, totalLines]` whenever the trailing accumulated remainder
is pushed (its trim is nonempty) or the whole-file fallback chunk is used —
trailing whitespace-only lines after the last closed chunk are not covered. -/
theorem claim_C3_amended (content filename : String) :
    covers (chunkContent content filename) 1 (coverEnd (chunkContent content filename) 1) ∧
    coverEnd (chunkContent content filename) 1 ≤ (splitLines content).length + 1 ∧
    chunkContent content filename ≠ [] ∧
    ((chunkContentCore content filename = [] ∨
        jsTrim (chunkFold content filename).currentChunk ≠ "") →
      coverEnd (chunkContent content filename) 1 = (splitLines content).length + 1) :=
  chunkContent_spec content filename

/-- Witness for C3 (amended) on the two-line file `"a\nb"`. -/
theorem claim_C3_amended_witness :
    coverEnd (chunkContent ("a" ++ "\n" ++ "b") "f") 1 =
      (splitLines ("a" ++ "\n" ++ "b")).length + 1 :=
  (claim_C3_amended ("a" ++ "\n" ++ "b") "f").2.2.2 (Or.inr (by decide))

/-- C8: a file whose content yields zero chunks from the line-accumulation
process gets exactly one whole-file fallback chunk with `startLine 1` and
`endLine` equal to the file's line count; consequently `chunkContent` never
returns an empty list. -/
theorem claim_C8 (content filename : String) :
    (chunkContentCore content filename = [] →
      chunkContent content filename =
        [⟨"File: " ++ filename ++ "\n\n" ++ content, 1, (splitLines content).length⟩]) ∧
    chunkContent content filename ≠ [] := by
  refine ⟨fun h => ?_, (chunkContent_spec content filename).2.2.1⟩
  unfold chunkContent
  rw [h]
  rfl

/-- Witness for C8 on the empty file. -/
theorem claim_C8_witness :
    chunkContent "" "f" =
      [⟨"File: " ++ "f" ++ "\n\n" ++ "", 1, (splitLines "").length⟩] :=
  (claim_C8 "" "f").1 (by decide)

/-! ## Job manager (`src/utils/jobs/manager.js`)

JS `Date` values are modelled as `Int` timestamps, job `progress` as `ℚ`
(JS numbers), and the jobs `Map` as an association list. -/

/-- One entry of a job's `logs` array. -/
structure LogEntry where
  timestamp : Int
  level : String
  message : String
  jobId : String
  projectId : String
deriving Repr, DecidableEq

structure DeltaStats where
  skipped : Nat
  updated : Nat
  added : Nat
  deleted : Nat
  total : Nat
deriving Repr, DecidableEq

/-- The result object built by `FileIndexer.indexDirectory` (its `success`
field is the constant `true` and is omitted). -/
structure IndexResult where
  filesProcessed : Nat
  chunksIndexed : Nat
  filesTotal : Nat
  deltaStats : Option DeltaStats
deriving Repr, DecidableEq

structure JobStats where
  filesTotal : Nat
  filesProcessed : Nat
  chunksIndexed : Nat
  deltaStats : Option DeltaStats
deriving Repr, DecidableEq

structure Job where
  id : String
  type : String
  projectId : String
  status : String
  progress : ℚ
  startTime : Int
  endTime : Option Int
  duration : Option Int
  result : Option IndexResult
  error : Option String
  params : String
  logs : List LogEntry
  stats : JobStats
deriving DecidableEq

/-- `JobManager.createJob(type, projectId, params)` at time `now`, with the
pre-incremented id counter value `counter`. -/
def createJob (now : Int) (counter : Nat) (type projectId params : String) : Job :=
  { id := "job_" ++ toString counter ++ "_" ++ toString now
    type := type
    projectId := projectId
    status := "pending"
    progress := 0
    startTime := now
    endTime := none
    duration := none
    result := none
    error := none
    params := params
    logs := []
    stats := ⟨0, 0, 0, none⟩ }

/-- The `updates` object passed to `JobManager.updateJob`: only the fields
actually used by the source are modelled; `none` means the field is absent
from the object (so `Object.assign` leaves it unchanged). -/
structure JobUpdates where
  status : Option String := none
  progress : Option ℚ := none
  result : Option IndexResult := none
  error : Option String := none
  stats : Option JobStats := none

/-- `Object.assign(job, updates)`. -/
def applyUpdates (job : Job) (u : JobUpdates) : Job :=
  { job with
    status := u.status.getD job.status
    progress := u.progress.getD job.progress
    result := match u.result with | some r => some r | none => job.result
    error := match u.error with | some e => some e | none => job.error
    stats := u.stats.getD job.stats }

/-- `JobManager.updateJob(jobId, updates)` on a found job, at time `now`. -/
def updateJob (now : Int) (job : Job) (u : JobUpdates) : Job :=
  let j := applyUpdates job u
  if u.status = some "completed" ∨ u.status = some "failed" then
    { j with endTime := some now, duration := some (now - job.startTime) }
  else j

/-- `n` last elements of a list (JS `splice(0, length - n)` keeps these). -/
def takeLast (n : Nat) (l : List α) : List α := l.drop (l.length - n)

/-- `JobManager.addJobLog(jobId, message, level)` on a found job: push the
entry, then cap the history at the last 50 entries
(`splice(0, logs.length - 50)`). -/
def capLogs (logs : List LogEntry) : List LogEntry :=
  if 50 < logs.length then logs.drop (logs.length - 50) else logs

def addJobLogEntry (now : Int) (job : Job) (message level : String) : Job :=
  { job with logs := capLogs (job.logs ++ [⟨now, level, message, job.id, job.projectId⟩]) }

/-- `JobManager.updateProgress(jobId, progress, message)` on a found job:
clamp into `[0, 100]`, then log the message if one was given. -/
def updateProgress (now : Int) (job : Job) (p : ℚ) (message : Option String) : Job :=
  let j := { job with progress := min 100 (max 0 p) }
  match message with
  | some m => addJobLogEntry now j m "info"
  | none => j

/-- Whether `cleanupOldJobs` removes a job: `job.endTime && job.endTime < cutoff`
(a JS `Date` is always truthy, so this is "endTime is set and before cutoff"). -/
def removedByCleanup (now maxAge : Int) (job : Job) : Bool :=
  match job.endTime with
  | some t => decide (t < now - maxAge)
  | none => false

/-- `JobManager.cleanupOldJobs(maxAge)` over the jobs map at time `now`:
returns the remaining map and the number of removed jobs. -/
def cleanupOldJobs (now maxAge : Int) (jobs : List (String × Job)) :
    List (String × Job) × Nat :=
  (jobs.filter (fun p => ¬ removedByCleanup now maxAge p.2),
   (jobs.filter (fun p => removedByCleanup now maxAge p.2)).length)

/-- `JobManager.getActiveJobs()`. -/
def getActiveJobs (jobs : List (String × Job)) : List Job :=
  (jobs.map Prod.snd).filter (fun j => j.status = "pending" ∨ j.status = "running")

/-! ### `runIndexJob`

`FileIndexer.indexDirectory` reports to the job manager through
`updateProgress`/`addJobLog` callbacks; a run is reified as the list of
`JobEvent`s it issues plus its `Except` outcome.  `runIndexJob t job events
outcome` returns the sequence of job states a poller could observe (one per
suspension point) and the value returned / error re-thrown. -/

inductive JobEvent
  | progress (p : ℚ) (message : Option String)
  | log (message level : String)
deriving Repr, DecidableEq

def applyEvent (now : Int) (job : Job) : JobEvent → Job
  | .progress p message => updateProgress now job p message
  | .log message level => addJobLogEntry now job message level

/-- The `stats` object written by `runIndexJob` on completion:
`result.filesTotal || result.filesProcessed` (JS `||` takes the right operand
when `filesTotal` is `0`). -/
def completedStats (r : IndexResult) : JobStats :=
  ⟨if r.filesTotal = 0 then r.filesProcessed else r.filesTotal,
   r.filesProcessed, r.chunksIndexed, r.deltaStats⟩

def deltaStatsMsg (ds : DeltaStats) : String :=
  "Delta stats: " ++ toString ds.skipped ++ " skipped, " ++ toString ds.updated ++
    " updated, " ++ toString ds.added ++ " added, " ++ toString ds.deleted ++ " deleted"

/-- The terminal part of `runIndexJob` (after the awaited indexing finishes
with `outcome`, starting from the job state `j2` left by the callbacks):
the terminal `updateJob` plus the completion/failure log appends. -/
def runTail (t : Int) (j2 : Job) (outcome : Except String IndexResult) : List Job :=
  match outcome with
  | .ok r =>
    let j3 := updateJob t j2
      { status := some "completed", progress := some 100, result := some r,
        stats := some (completedStats r) }
    let j4 := addJobLogEntry t j3 "Indexing completed successfully" "success"
    let j5 := addJobLogEntry t j4
      ("Files processed: " ++ toString r.filesProcessed ++ ", Chunks indexed: " ++
        toString r.chunksIndexed) "success"
    match r.deltaStats with
    | some ds => [j3, j4, j5, addJobLogEntry t j5 (deltaStatsMsg ds) "success"]
    | none => [j3, j4, j5]
  | .error e =>
    let j3 := updateJob t j2
      { status := some "failed", progress := some 0, error := some e }
    [j3, addJobLogEntry t j3 ("Indexing failed: " ++ e) "error"]

/-- `JobManager.runIndexJob` on a found job: mark it `running`, apply the
indexing callbacks, then record the terminal state; the second component is
the value returned (`result`) or re-thrown (`error`). -/
def runIndexJob (t : Int) (job : Job) (events : List JobEvent)
    (outcome : Except String IndexResult) :
    List Job × Except String IndexResult :=
  let j1 := updateJob t job { status := some "running" }
  (events.scanl (applyEvent t) j1 ++
    runTail t (events.foldl (applyEvent t) j1) outcome, outcome)

/-! ### Garbage collection (C7) -/

theorem removedByCleanup_iff (now maxAge : Int) (j : Job) :
    removedByCleanup now maxAge j = true ↔
      ∃ t, j.endTime = some t ∧ t < now - maxAge := by
  unfold removedByCleanup
  cases h : j.endTime with
  | none => simp
  | some t => simp

/-- C7: `cleanupOldJobs` keeps exactly the jobs whose `endTime` is unset or
not strictly older than `now - maxAge`; a job with `endTime = null`
(non-terminal) is never removed; the returned count is the number of removed
jobs. -/
theorem claim_C7 (now maxAge : Int) (jobs : List (String × Job)) (id : String) (j : Job) :
    ((id, j) ∈ (cleanupOldJobs now maxAge jobs).1 ↔
      (id, j) ∈ jobs ∧ ¬ ∃ t, j.endTime = some t ∧ t < now - maxAge) ∧
    (j.endTime = none → (id, j) ∈ jobs → (id, j) ∈ (cleanupOldJobs now maxAge jobs).1) ∧
    (cleanupOldJobs now maxAge jobs).2 =
      (jobs.filter (fun p => removedByCleanup now maxAge p.2)).length := by
  have hmem : (id, j) ∈ (cleanupOldJobs now maxAge jobs).1 ↔
      (id, j) ∈ jobs ∧ ¬ ∃ t, j.endTime = some t ∧ t < now - maxAge := by
    unfold cleanupOldJobs
    rw [List.mem_filter]
    constructor
    · rintro ⟨hin, hb⟩
      refine ⟨hin, ?_⟩
      rw [← removedByCleanup_iff now maxAge j]
      simpa using hb
    · rintro ⟨hin, hb⟩
      refine ⟨hin, ?_⟩
      rw [← removedByCleanup_iff now maxAge j] at hb
      simpa using hb
  refine ⟨hmem, fun hnone hin => ?_, rfl⟩
  rw [hmem]
  exact ⟨hin, by rintro ⟨t, ht, -⟩; rw [hnone] at ht; cases ht⟩

/-- Witness for C7: a pending job (no `endTime`) survives cleanup. -/
theorem claim_C7_witness :
    ("a", createJob 0 1 "index" "p" "") ∈
      (cleanupOldJobs 1000000 10 [("a", createJob 0 1 "index" "p" "")]).1 :=
  (claim_C7 1000000 10 [("a", createJob 0 1 "index" "p" "")] "a"
    (createJob 0 1 "index" "p" "")).2.1 rfl (by simp)

/-! ### Log-buffer cap (C9) -/

theorem takeLast_length (n : Nat) (l : List α) : (takeLast n l).length = min n l.length := by
  unfold takeLast
  rw [List.length_drop]
  omega

theorem takeLast_of_le {n : Nat} {l : List α} (h : l.length ≤ n) : takeLast n l = l := by
  unfold takeLast
  have : l.length - n = 0 := by omega
  rw [this, List.drop_zero]

theorem takeLast_takeLast_append (n : Nat) (A B : List α) :
    takeLast n (takeLast n A ++ B) = takeLast n (A ++ B) := by
  by_cases h : A.length ≤ n
  · rw [takeLast_of_le h]
  · unfold takeLast
    have hlen : (A.drop (A.length - n)).length = n := by
      rw [List.length_drop]; omega
    rw [List.drop_append_eq_append_drop, List.drop_append_eq_append_drop, List.drop_drop]
    rw [List.length_append, List.length_append, hlen]
    congr 2 <;> omega

theorem capLogs_eq_takeLast (logs : List LogEntry) : capLogs logs = takeLast 50 logs := by
  unfold capLogs takeLast
  by_cases h : 50 < logs.length
  · rw [if_pos h]
  · rw [if_neg h]
    have h0 : logs.length - 50 = 0 := by omega
    rw [h0, List.drop_zero]

theorem addJobLogEntry_logs (t : Int) (j : Job) (m lv : String) :
    (addJobLogEntry t j m lv).logs =
      takeLast 50 (j.logs ++ [⟨t, lv, m, j.id, j.projectId⟩]) :=
  capLogs_eq_takeLast _

theorem addJobLogEntry_id (t : Int) (j : Job) (m lv : String) :
    (addJobLogEntry t j m lv).id = j.id := rfl

theorem addJobLogEntry_projectId (t : Int) (j : Job) (m lv : String) :
    (addJobLogEntry t j m lv).projectId = j.projectId := rfl

/-- A sequence of `addJobLog` calls, each given as `(time, message, level)`. -/
def foldJobLogs (job : Job) (es : List (Int × String × String)) : Job :=
  es.foldl (fun j e => addJobLogEntry e.1 j e.2.1 e.2.2) job

theorem foldJobLogs_logs (job : Job) (es : List (Int × String × String))
    (acc : List LogEntry) (h : job.logs = takeLast 50 acc) :
    (foldJobLogs job es).logs =
      takeLast 50 (acc ++ es.map (fun e => ⟨e.1, e.2.2, e.2.1, job.id, job.projectId⟩)) := by
  induction es generalizing job acc with
  | nil => simpa using h
  | cons e es ih =>
    show (foldJobLogs (addJobLogEntry e.1 job e.2.1 e.2.2) es).logs = _
    have hstep : (addJobLogEntry e.1 job e.2.1 e.2.2).logs =
        takeLast 50 (acc ++ [⟨e.1, e.2.2, e.2.1, job.id, job.projectId⟩]) := by
      rw [addJobLogEntry_logs, h, takeLast_takeLast_append]
    have h2 := ih _ _ hstep
    rw [h2, addJobLogEntry_id, addJobLogEntry_projectId]
    rw [List.append_assoc]
    rfl

/-- C9: over any sequence of `addJobLog` calls, a job's `logs` array never
exceeds 50 entries, and the retained entries are exactly the 50 most recent
(drop-oldest eviction). -/
theorem claim_C9 (job : Job) (es : List (Int × String × String))
    (h : job.logs.length ≤ 50) :
    (foldJobLogs job es).logs.length ≤ 50 ∧
    (foldJobLogs job es).logs =
      takeLast 50 (job.logs ++
        es.map (fun e => ⟨e.1, e.2.2, e.2.1, job.id, job.projectId⟩)) := by
  have hlogs := foldJobLogs_logs job es job.logs (takeLast_of_le h).symm
  refine ⟨?_, hlogs⟩
  rw [hlogs, takeLast_length]
  omega

/-- Witness for C9: 60 log calls on a fresh job leave exactly 50 entries. -/
theorem claim_C9_witness :
    (foldJobLogs (createJob 0 1 "index" "p" "")
        ((List.range 60).map (fun i => ((i : Int), "m", "info")))).logs.length ≤ 50 ∧
    (foldJobLogs (createJob 0 1 "index" "p" "")
        ((List.range 60).map (fun i => ((i : Int), "m", "info")))).logs =
      takeLast 50 ((createJob 0 1 "index" "p" "").logs ++
        ((List.range 60).map (fun i => ((i : Int), "m", "info"))).map
          (fun e => ⟨e.1, e.2.2, e.2.1, (createJob 0 1 "index" "p" "").id,
            (createJob 0 1 "index" "p" "").projectId⟩)) :=
  claim_C9 (createJob 0 1 "index" "p" "")
    ((List.range 60).map (fun i => ((i : Int), "m", "info"))) (by decide)

/-! ### Job lifecycle (C5) -/

theorem applyEvent_preserves (t : Int) (j : Job) (ev : JobEvent) :
    (applyEvent t j ev).status = j.status ∧
    (applyEvent t j ev).startTime = j.startTime ∧
    (applyEvent t j ev).endTime = j.endTime := by
  cases ev with
  | progress p msg => cases msg <;> exact ⟨rfl, rfl, rfl⟩
  | log m lv => exact ⟨rfl, rfl, rfl⟩

theorem foldl_applyEvent_preserves (t : Int) (evs : List JobEvent) (j : Job) :
    (evs.foldl (applyEvent t) j).status = j.status ∧
    (evs.foldl (applyEvent t) j).startTime = j.startTime ∧
    (evs.foldl (applyEvent t) j).endTime = j.endTime := by
  induction evs generalizing j with
  | nil => exact ⟨rfl, rfl, rfl⟩
  | cons e es ih =>
    rw [List.foldl_cons]
    obtain ⟨h1, h2, h3⟩ := ih (applyEvent t j e)
    obtain ⟨g1, g2, g3⟩ := applyEvent_preserves t j e
    exact ⟨h1.trans g1, h2.trans g2, h3.trans g3⟩

theorem scanl_applyEvent_status (t : Int) (evs : List JobEvent) (j : Job) :
    ∀ x ∈ evs.scanl (applyEvent t) j, x.status = j.status := by
  induction evs generalizing j with
  | nil =>
    intro x hx
    rw [List.scanl_nil] at hx
    simp at hx
    rw [hx]
  | cons e es ih =>
    intro x hx
    rw [List.scanl_cons] at hx
    rcases List.mem_cons.mp hx with h | h
    · rw [h]
    · exact (ih (applyEvent t j e) x h).trans (applyEvent_preserves t j e).1

theorem scanl_head? (f : β → α → β) (b : β) (l : List α) :
    (l.scanl f b).head? = some b := by
  cases l with
  | nil => rfl
  | cons a l => rw [List.scanl_cons]; rfl

theorem scanl_ne_nil (f : β → α → β) (b : β) (l : List α) :
    l.scanl f b ≠ [] := by
  cases l with
  | nil => simp [List.scanl_nil]
  | cons a l => rw [List.scanl_cons]; simp

theorem updateJob_running (t : Int) (job : Job) :
    (updateJob t job { status := some "running" }).status = "running" ∧
    (updateJob t job { status := some "running" }).startTime = job.startTime ∧
    (updateJob t job { status := some "running" }).endTime = job.endTime := by
  unfold updateJob applyUpdates
  rw [if_neg (by decide)]
  exact ⟨rfl, rfl, rfl⟩

/-- The terminal status written by `runIndexJob` for a given outcome. -/
def outcomeStatus (outcome : Except String IndexResult) : String :=
  match outcome with
  | .ok _ => "completed"
  | .error _ => "failed"

theorem updateJob_terminal (t : Int) (job : Job) (u : JobUpdates)
    (h : u.status = some "completed" ∨ u.status = some "failed") :
    (updateJob t job u).status = (u.status).getD job.status ∧
    (updateJob t job u).endTime = some t ∧
    (updateJob t job u).startTime = job.startTime := by
  unfold updateJob applyUpdates
  rw [if_pos h]
  exact ⟨rfl, rfl, rfl⟩

theorem addJobLogEntry_preserves (t : Int) (j : Job) (m lv : String) :
    (addJobLogEntry t j m lv).status = j.status ∧
    (addJobLogEntry t j m lv).startTime = j.startTime ∧
    (addJobLogEntry t j m lv).endTime = j.endTime :=
  ⟨rfl, rfl, rfl⟩

theorem runTail_ne_nil (t : Int) (j2 : Job) (outcome : Except String IndexResult) :
    runTail t j2 outcome ≠ [] := by
  cases outcome with
  | ok r => cases hds : r.deltaStats <;> simp [runTail, hds]
  | error e => simp [runTail]

/-- Every state of the terminal suffix carries the terminal status for the
outcome, `endTime = t`, and the `startTime` of the preceding state. -/
theorem runTail_spec (t : Int) (j2 : Job) (outcome : Except String IndexResult) :
    ∀ x ∈ runTail t j2 outcome,
      x.status = outcomeStatus outcome ∧ x.endTime = some t ∧
      x.startTime = j2.startTime := by
  cases outcome with
  | ok r =>
    have hterm := updateJob_terminal t j2
      { status := some "completed", progress := some 100, result := some r,
        stats := some (completedStats r) } (Or.inl rfl)
    cases hds : r.deltaStats with
    | some ds =>
      intro x hx
      simp only [runTail, hds, List.mem_cons, List.not_mem_nil, or_false] at hx
      rcases hx with rfl | rfl | rfl | rfl
      all_goals exact ⟨hterm.1, hterm.2.1, hterm.2.2⟩
    | none =>
      intro x hx
      simp only [runTail, hds, List.mem_cons, List.not_mem_nil, or_false] at hx
      rcases hx with rfl | rfl | rfl
      all_goals exact ⟨hterm.1, hterm.2.1, hterm.2.2⟩
  | error e =>
    have hterm := updateJob_terminal t j2
      { status := some "failed", progress := some 0, error := some e } (Or.inr rfl)
    intro x hx
    simp only [runTail, List.mem_cons, List.not_mem_nil, or_false] at hx
    rcases hx with rfl | rfl
    all_goals exact ⟨hterm.1, hterm.2.1, hterm.2.2⟩

/-- The `runIndexJob` trace is the running-states prefix followed by the
terminal suffix. -/
theorem runIndexJob_trace (t : Int) (job : Job) (events : List JobEvent)
    (outcome : Except String IndexResult) :
    (runIndexJob t job events outcome).1 =
      events.scanl (applyEvent t) (updateJob t job { status := some "running" }) ++
        runTail t (events.foldl (applyEvent t)
          (updateJob t job { status := some "running" })) outcome := rfl

/-- `runIndexJob` returns the orchestrator result on success and re-throws
the error on failure. -/
theorem runIndexJob_ret (t : Int) (job : Job) (events : List JobEvent)
    (outcome : Except String IndexResult) :
    (runIndexJob t job events outcome).2 = outcome := rfl

/-- The final job state of `runIndexJob` has the terminal status of the
outcome, `endTime = t`, and the original `startTime`. -/
theorem runIndexJob_last (t : Int) (job : Job) (events : List JobEvent)
    (outcome : Except String IndexResult) :
    ∀ jf, (runIndexJob t job events outcome).1.getLast? = some jf →
      jf.status = outcomeStatus outcome ∧
      jf.endTime = some t ∧
      jf.startTime = job.startTime := by
  intro jf hlast
  rw [runIndexJob_trace,
      List.getLast?_append_of_ne_nil _ (runTail_ne_nil t _ outcome)] at hlast
  have hmem : jf ∈ runTail t
      (events.foldl (applyEvent t) (updateJob t job { status := some "running" }))
      outcome := by
    obtain ⟨h, rfl⟩ := List.mem_getLast?_eq_getLast (Option.mem_def.mpr hlast)
    exact List.getLast_mem h
  obtain ⟨h1, h2, h3⟩ := runTail_spec t _ outcome jf hmem
  refine ⟨h1, h2, h3.trans ?_⟩
  exact (foldl_applyEvent_preserves t events _).2.1.trans (updateJob_running t job).2.1

/-- C5 (counterexample to the original claim): `runIndexJob` is an exposed
operation, and invoking it on a job already in the terminal status
`completed` immediately moves that job to `running` again — the code has no
guard against re-running a terminal job. -/
def c5r : IndexResult := ⟨0, 0, 0, none⟩

def c5terminalJob : Option Job :=
  (runIndexJob 0 (createJob 0 1 "index" "p" "") [] (Except.ok c5r)).1.getLast?

theorem claim_C5_counterexample :
    c5terminalJob.map Job.status = some "completed" ∧
    c5terminalJob.map
        (fun j => (runIndexJob 0 j [] (Except.ok c5r)).1.head?.map Job.status) =
      some (some "running") := by
  constructor
  · decide
  · decide

/-- C5 (amended): a job created by `createJob` starts `pending` with
progress 0 and no `endTime`; `runIndexJob` makes the job `running` before
any indexing callback runs, every observable state during the run is
`running` or the terminal status, the final state is exactly `completed`
(success) or `failed` (error) with `endTime` set at the terminal transition
(and `endTime ≥ startTime` whenever the clock did not go backwards), and the
result or error is returned to the caller; `cleanupOldJobs` only removes
jobs and never alters a retained one.  Exception forced by the
counterexample: invoking `runIndexJob` again on an already-terminal job does
move it back out of its terminal status. -/
theorem claim_C5_amended :
    (∀ (now : Int) (counter : Nat) (ty pid pa : String),
      (createJob now counter ty pid pa).status = "pending" ∧
      (createJob now counter ty pid pa).progress = 0 ∧
      (createJob now counter ty pid pa).endTime = none) ∧
    (∀ (t : Int) (job : Job) (events : List JobEvent)
        (outcome : Except String IndexResult),
      (runIndexJob t job events outcome).1.head?.map Job.status = some "running" ∧
      (∀ x ∈ (runIndexJob t job events outcome).1,
        x.status = "running" ∨ x.status = outcomeStatus outcome) ∧
      (outcomeStatus outcome = "completed" ∨ outcomeStatus outcome = "failed") ∧
      (∀ jf, (runIndexJob t job events outcome).1.getLast? = some jf →
        jf.status = outcomeStatus outcome ∧ jf.endTime = some t ∧
        jf.startTime = job.startTime ∧
        (job.startTime ≤ t → ∃ te, jf.endTime = some te ∧ job.startTime ≤ te)) ∧
      (runIndexJob t job events outcome).2 = outcome) ∧
    (∀ (now maxAge : Int) (jobs : List (String × Job)) (p : String × Job),
      p ∈ (cleanupOldJobs now maxAge jobs).1 → p ∈ jobs) := by
  refine ⟨fun now counter ty pid pa => ⟨rfl, rfl, rfl⟩, ?_, ?_⟩
  · intro t job events outcome
    refine ⟨?_, ?_, ?_, ?_, runIndexJob_ret t job events outcome⟩
    · -- head of the trace is the running state
      rw [runIndexJob_trace]
      have hscanl : ∃ rest,
          events.scanl (applyEvent t) (updateJob t job { status := some "running" }) =
            updateJob t job { status := some "running" } :: rest := by
        cases events with
        | nil => exact ⟨[], rfl⟩
        | cons e es =>
          exact ⟨List.scanl (applyEvent t)
            (applyEvent t (updateJob t job { status := some "running" }) e) es,
            by rw [List.scanl_cons]; rfl⟩
      obtain ⟨rest, hr⟩ := hscanl
      rw [hr, List.cons_append]
      show some (updateJob t job { status := some "running" }).status = some "running"
      rw [(updateJob_running t job).1]
    · -- every observable state is running or terminal
      intro x hx
      rw [runIndexJob_trace] at hx
      rcases List.mem_append.mp hx with h | h
      · exact Or.inl ((scanl_applyEvent_status t events _ x h).trans
          (updateJob_running t job).1)
      · exact Or.inr (runTail_spec t _ outcome x h).1
    · cases outcome with
      | ok r => exact Or.inl rfl
      | error e => exact Or.inr rfl
    · intro jf hlast
      obtain ⟨h1, h2, h3⟩ := runIndexJob_last t job events outcome jf hlast
      exact ⟨h1, h2, h3, fun hle => ⟨t, h2, hle⟩⟩
  · intro now maxAge jobs p hp
    exact (List.mem_filter.mp hp).1

/-- Witness for C5 (amended): the final state of a concrete successful run
is `completed`. -/
theorem claim_C5_witness :
    (runIndexJob 5 (createJob 0 1 "index" "p" "") [] (Except.ok c5r)).1.getLast?.map
      Job.status = some "completed" := by
  cases hl : (runIndexJob 5 (createJob 0 1 "index" "p" "") [] (Except.ok c5r)).1.getLast? with
  | none => exact absurd hl (by decide)
  | some jf =>
    have h := (claim_C5_amended.2.1 5 (createJob 0 1 "index" "p" "") []
      (Except.ok c5r)).2.2.2.1 jf hl
    show some jf.status = some "completed"
    rw [h.1]
    rfl

/-! ## Vector store (`src/utils/vector-store/mongovs.js`)

Stored chunk documents and the linear-scan cosine-similarity search.
JS floats are modelled as `ℚ` with `Math.sqrt` an abstract parameter
`sq : ℚ → ℚ` (the claims below do not depend on its values; note that JS
produces `NaN` for `0/0` where `ℚ` division yields `0`).  A stored
`embedding` field is `Option (Option (List ℚ))`: the outer level is field
presence (`$exists`), the inner level distinguishes a `null`/undefined value
(JS falsy, caught by the `!a || !b` guard) from an actual vector. -/

structure FileMeta where
  fileSize : Nat
  lastModified : Int
  contentHash : String
deriving Repr, DecidableEq

structure DocMeta where
  fileSize : Nat
  fileType : String
  lastModified : Int
  contentHash : String
  startLine : Nat
  endLine : Nat
deriving Repr, DecidableEq

structure StoredDoc where
  projectId : String
  filePath : String
  chunkIndex : Nat
  totalChunks : Nat
  content : String
  embedding : Option (Option (List ℚ))
  metadata : DocMeta
deriving Repr, DecidableEq

/-- `cosineSimilarity(a, b)`: 0 when either vector is falsy or the lengths
differ, otherwise `dot / (‖a‖ * ‖b‖)`. -/
def cosineSimilarity (sq : ℚ → ℚ) : Option (List ℚ) → Option (List ℚ) → ℚ
  | some a, some b =>
    if a.length ≠ b.length then 0
    else ((a.zip b).foldl (fun sum p => sum + p.1 * p.2) 0) /
      (sq (a.foldl (fun sum v => sum + v * v) 0) *
       sq (b.foldl (fun sum v => sum + v * v) 0))
  | _, _ => 0

structure SearchResult where
  projectId : String
  filePath : String
  content : String
  metadata : DocMeta
  score : ℚ
deriving Repr, DecidableEq

/-- The Mongo filter of `search`: `{ embedding: { $exists: true } }` plus the
optional `projectId` equality. -/
def searchFilter (projectId : Option String) (d : StoredDoc) : Bool :=
  d.embedding.isSome &&
    (match projectId with
     | some p => d.projectId = p
     | none => true)

/-- `MongoVectorStore.search(queryEmbedding, topK, projectId)` over the
document collection `docs`: linear scan, score all matches, sort by
descending score, return the first `topK`. -/
def search (sq : ℚ → ℚ) (queryEmbedding : Option (List ℚ)) (topK : Nat)
    (projectId : Option String) (docs : List StoredDoc) : List SearchResult :=
  let allDocs := docs.filter (searchFilter projectId)
  let scored := allDocs.map (fun d =>
    ⟨d.projectId, d.filePath, d.content, d.metadata,
      cosineSimilarity sq queryEmbedding d.embedding.join⟩)
  (List.insertionSort (fun a b => b.score ≤ a.score) scored).take topK

/-- C10: `cosineSimilarity` returns 0 whenever either vector is missing/null
or the lengths differ, so a dimensionality mismatch never makes `search`
fail; every returned score is the cosine similarity of the query against the
matched document's embedding, and at most `topK` results are returned. -/
theorem claim_C10 :
    (∀ (sq : ℚ → ℚ) (a b : Option (List ℚ)),
      (a = none ∨ b = none ∨
        ∃ va vb, a = some va ∧ b = some vb ∧ va.length ≠ vb.length) →
      cosineSimilarity sq a b = 0) ∧
    (∀ (sq : ℚ → ℚ) (q : Option (List ℚ)) (topK : Nat) (pid : Option String)
        (docs : List StoredDoc),
      (search sq q topK pid docs).length ≤ topK) ∧
    (∀ (sq : ℚ → ℚ) (q : Option (List ℚ)) (topK : Nat) (pid : Option String)
        (docs : List StoredDoc) (r : SearchResult),
      r ∈ search sq q topK pid docs →
        ∃ d, d ∈ docs ∧ searchFilter pid d = true ∧
          r.score = cosineSimilarity sq q d.embedding.join ∧
          r.projectId = d.projectId ∧ r.filePath = d.filePath) := by
  refine ⟨?_, ?_, ?_⟩
  · intro sq a b h
    rcases h with rfl | h
    · rfl
    rcases h with rfl | ⟨va, vb, rfl, rfl, hlen⟩
    · cases a <;> rfl
    · show (if va.length ≠ vb.length then (0 : ℚ) else _) = 0
      rw [if_pos hlen]
  · intro sq q topK pid docs
    unfold search
    rw [List.length_take]
    exact Nat.min_le_left _ _
  · intro sq q topK pid docs r hr
    unfold search at hr
    have hr2 := List.take_subset topK _ hr
    rw [(List.perm_insertionSort
      (fun a b : SearchResult => b.score ≤ a.score) _).mem_iff] at hr2
    obtain ⟨d, hd, hmap⟩ := List.mem_map.mp hr2
    obtain ⟨hdocs, hfilter⟩ := List.mem_filter.mp hd
    exact ⟨d, hdocs, hfilter, by rw [← hmap], by rw [← hmap], by rw [← hmap]⟩

/-- Witness for C10: a query of dimension 2 against a stored embedding of
dimension 1 scores 0 instead of failing. -/
theorem claim_C10_witness :
    cosineSimilarity (fun x => x) (some [1, 2]) (some [1]) = 0 :=
  claim_C10.1 (fun x => x) (some [1, 2]) (some [1])
    (Or.inr (Or.inr ⟨[1, 2], [1], rfl, rfl, by decide⟩))

/-! ## File indexer (`FileIndexer.indexDirectory` and helpers)

The filesystem, `glob`, the embedding provider and the two fallible store
writes are oracles in an `IndexEnv`; the document store is threaded as an
explicit list of `StoredDoc`, and every store mutation is also recorded in a
trace of `StoreOp`s.  Progress/log callbacks are recorded as `JobEvent`s
(empty when no job id is passed). -/

/-- Node `path.extname` (on names produced by a directory walk): the suffix
of the basename from its last `.`, empty when there is no dot or the only
dot is the leading character; `".."` is the path-navigation special case. -/
def extname (p : String) : String :=
  let b := (p.data.reverse.takeWhile (fun c => ¬ c = '/')).reverse
  if b = ['.', '.'] then ""
  else
    let afterDot := b.reverse.takeWhile (fun c => ¬ c = '.')
    if afterDot.length + 1 < b.length then String.mk ('.' :: afterDot.reverse)
    else ""

/-- The extension allowlist of `FileIndexer.isTextFile`. -/
def textExtensions : List String :=
  [".js", ".ts", ".jsx", ".tsx",
   ".py", ".java", ".c", ".cpp", ".h", ".hpp", ".cs", ".php", ".rb", ".go",
   ".rs", ".swift", ".kt", ".scala", ".clj", ".r", ".R", ".m", ".pl",
   ".html", ".css", ".scss", ".sass", ".less", ".vue", ".svelte", ".astro",
   ".xml", ".json", ".yaml", ".yml", ".toml", ".ini", ".conf", ".config",
   ".md", ".txt", ".sql",
   ".sh", ".bash", ".zsh", ".fish", ".ps1", ".bat",
   ".dockerfile", ".gitignore", ".env.example", ".lock"]

/-- `String.prototype.toLowerCase` on the ASCII range (the only characters
occurring in the extension allowlist). -/
def lowerChar (c : Char) : Char :=
  if 'A' ≤ c ∧ c ≤ 'Z' then Char.ofNat (c.toNat + 32) else c

def lowerStr (s : String) : String :=
  String.mk (s.data.map lowerChar)

/-- `FileIndexer.isTextFile`: recognized extension (case-insensitive) or no
extension at all. -/
def isTextFile (filename : String) : Bool :=
  textExtensions.contains (lowerStr (extname filename)) || extname filename = ""

/-- What a successful `fs.stat` + `fs.readFile('utf8')` yields. -/
structure FsEntry where
  mtime : Int
  content : String

/-- Oracles for the collaborators of one `indexDirectory` run. -/
structure IndexEnv where
  glob : Except String (List String)
  fs : String → Except String FsEntry
  embed : String → Except String (List ℚ)
  hash : String → String
  insert : Except String Unit
  upsert : Except String Unit

/-- Store-mutating operations issued during a run, in order. -/
inductive StoreOp
  | removeChunks (projectId filePath : String)
  | bulkInsert (docs : List StoredDoc)
deriving DecidableEq

/-- A store operation that mutates the chunks of `(p, f)`: deleting them or
inserting a document for that path. -/
def opTouches (p f : String) : StoreOp → Prop
  | .removeChunks q g => q = p ∧ g = f
  | .bulkInsert docs => ∃ d ∈ docs, d.projectId = p ∧ d.filePath = f

/-- `MongoVectorStore.removeFileChunks`: `deleteMany({projectId, filePath})`. -/
def removeFileChunks (p f : String) (s : List StoredDoc) : List StoredDoc :=
  s.filter (fun d => ¬ (d.projectId = p ∧ d.filePath = f))

/-- The `files` list of `MongoVectorStore.getProjectStats`:
`distinct('filePath', { projectId })`. -/
def getProjectFiles (p : String) (s : List StoredDoc) : List String :=
  ((s.filter (fun d => d.projectId = p)).map (fun d => d.filePath)).dedup

/-- `MongoVectorStore.getExistingFiles`: group the project's chunks by
`filePath`, taking the first-seen chunk's metadata (`$first`). -/
def getExistingFiles (p : String) (s : List StoredDoc) : List (String × FileMeta) :=
  (s.filter (fun d => d.projectId = p)).foldl
    (fun acc d =>
      if (acc.map Prod.fst).contains d.filePath then acc
      else acc ++
        [(d.filePath, ⟨d.metadata.fileSize, d.metadata.lastModified,
          d.metadata.contentHash⟩)])
    []

/-- `existingFiles[file]` (JS property lookup on the map object). -/
def lookupMeta (m : List (String × FileMeta)) (f : String) : Option FileMeta :=
  (m.find? (fun e => e.1 = f)).map Prod.snd

/-- State of the `for (const file of files)` loop of `indexDirectory`. -/
structure WalkState where
  documents : List StoredDoc
  processed : Nat
  skipped : Nat
  updated : Nat
  added : Nat
  fileIndex : Nat
  currentFiles : List String
  store : List StoredDoc
  ops : List StoreOp
  events : List JobEvent

/-- One document pushed for chunk `c` at index `i` of `file`. -/
def mkDoc (projectId file : String) (i total : Nat) (c : Chunk) (emb : List ℚ)
    (fileSize : Nat) (mtime : Int) (contentHash : String) : StoredDoc :=
  ⟨projectId, file, i, total, c.content, some (some emb),
   ⟨fileSize, extname file, mtime, contentHash, c.startLine, c.endLine⟩⟩

/-- The per-chunk embedding loop of one file; stops at the first embedding
error (the remaining chunks are not embedded), keeping the documents pushed
so far. -/
def embedLoop (env : IndexEnv) (projectId file : String) (fileSize : Nat)
    (mtime : Int) (contentHash : String) (total : Nat) :
    Nat → List Chunk → List StoredDoc → List StoredDoc × Option String
  | _, [], acc => (acc, none)
  | i, c :: rest, acc =>
    match env.embed c.content with
    | .error e => (acc, some e)
    | .ok emb =>
      embedLoop env projectId file fileSize mtime contentHash total (i + 1) rest
        (acc ++ [mkDoc projectId file i total c emb fileSize mtime contentHash])

def embedChunks (env : IndexEnv) (projectId file : String) (fileSize : Nat)
    (mtime : Int) (contentHash : String) (chunks : List Chunk) :
    List StoredDoc × Option String :=
  embedLoop env projectId file fileSize mtime contentHash chunks.length 0 chunks []

/-- Whether embedding all chunks succeeds (depends only on the chunk texts). -/
def embedErr (env : IndexEnv) : List Chunk → Option String
  | [] => none
  | c :: rest =>
    match env.embed c.content with
    | .error e => some e
    | .ok _ => embedErr env rest

/-- `startProgress + (fileIndex / totalFiles) * (endProgress - startProgress)`
with `startProgress = deltaOnly ? 20 : 15` and `endProgress = 85`. -/
def perFileProgress (deltaOnly : Bool) (fileIndex totalFiles : Nat) : ℚ :=
  (if deltaOnly then 20 else 15) +
    ((fileIndex : ℚ) / (totalFiles : ℚ)) * (85 - (if deltaOnly then 20 else 15))

/-- Chunking, embedding, document accumulation and progress reporting for
one file that was not skipped (lines 164-199 of the indexer). -/
def indexContent (env : IndexEnv) (projectId file content : String) (mtime : Int)
    (contentHash : String) (deltaOnly : Bool) (totalFiles : Nat)
    (st : WalkState) : WalkState :=
  let chunks := chunkContent content file
  let r := embedChunks env projectId file content.length mtime contentHash chunks
  let st1 := { st with documents := st.documents ++ r.1 }
  match r.2 with
  | some e =>
    { st1 with events := st1.events ++
        [.log ("Error processing file " ++ file ++ ": " ++ e) "error"] }
  | none =>
    let st2 := { st1 with
      processed := st1.processed + 1
      events := st1.events ++
        [.progress (perFileProgress deltaOnly st1.fileIndex totalFiles)
          (some ("Processed " ++ toString (st1.processed + 1) ++ "/" ++
            toString totalFiles ++ " files"))] }
    if (st1.processed + 1) % 10 = 0 then
      { st2 with events := st2.events ++
          [.log ("Processed " ++ toString (st1.processed + 1) ++ "/" ++
            toString totalFiles ++ " files") "info"] }
    else st2

/-- One iteration of the walk loop of `indexDirectory`. -/
def processFile (env : IndexEnv) (projectId : String) (deltaOnly : Bool)
    (existing : List (String × FileMeta)) (totalFiles : Nat)
    (st : WalkState) (file : String) : WalkState :=
  let st := { st with currentFiles := st.currentFiles ++ [file] }
  if isTextFile file then
    let st := { st with fileIndex := st.fileIndex + 1 }
    match env.fs file with
    | .error e =>
      { st with events := st.events ++
          [.log ("Error processing file " ++ file ++ ": " ++ e) "error"] }
    | .ok entry =>
      if 1024 * 1024 < entry.content.length then
        { st with events := st.events ++
            [.log ("Skipping large file: " ++ file) "warn"] }
      else
        let contentHash := env.hash entry.content
        if deltaOnly then
          match lookupMeta existing file with
          | some ex =>
            if ex.contentHash = contentHash ∧ ex.fileSize = entry.content.length ∧
                entry.mtime ≤ ex.lastModified then
              { st with skipped := st.skipped + 1 }
            else
              indexContent env projectId file entry.content entry.mtime contentHash
                deltaOnly totalFiles
                { st with store := removeFileChunks projectId file st.store,
                          ops := st.ops ++ [.removeChunks projectId file],
                          updated := st.updated + 1 }
          | none =>
            indexContent env projectId file entry.content entry.mtime contentHash
              deltaOnly totalFiles { st with added := st.added + 1 }
        else
          indexContent env projectId file entry.content entry.mtime contentHash
            deltaOnly totalFiles st
  else st

/-- The skip/add/update/unchanged decision for one walked path, as a pure
function of the environment and the prior snapshot (`updated`/`added` are
decided before any chunk is embedded, so an embedding failure does not
change the classification). -/
inductive FileClass
  | nonText | readError | tooLarge | unchanged | updatedC | addedC | full
deriving DecidableEq, Repr

def classifyFile (env : IndexEnv) (deltaOnly : Bool)
    (existing : List (String × FileMeta)) (file : String) : FileClass :=
  if isTextFile file then
    match env.fs file with
    | .error _ => .readError
    | .ok entry =>
      if 1024 * 1024 < entry.content.length then .tooLarge
      else if deltaOnly then
        match lookupMeta existing file with
        | some ex =>
          if ex.contentHash = env.hash entry.content ∧
              ex.fileSize = entry.content.length ∧
              entry.mtime ≤ ex.lastModified then .unchanged
          else .updatedC
        | none => .addedC
      else .full
  else .nonText

/-- A file counts into `filesProcessed` iff it is classified for indexing
and all of its chunk embeddings succeed. -/
def fileSucceeds (env : IndexEnv) (deltaOnly : Bool)
    (existing : List (String × FileMeta)) (file : String) : Bool :=
  match env.fs file with
  | .error _ => false
  | .ok entry =>
    (decide (classifyFile env deltaOnly existing file = .updatedC ∨
             classifyFile env deltaOnly existing file = .addedC ∨
             classifyFile env deltaOnly existing file = .full)) &&
    (embedErr env (chunkContent entry.content file)).isNone

/-- Result of one `indexDirectory` call: the returned/thrown value, the final
document store, the store-operation trace, and the job events. -/
structure RunOutput where
  result : Except String IndexResult
  store : List StoredDoc
  ops : List StoreOp
  events : List JobEvent

def deltaLogMsg (skipped updated added deleted : Nat) : String :=
  "Delta stats: " ++ toString skipped ++ " skipped, " ++ toString updated ++
    " updated, " ++ toString added ++ " added, " ++ toString deleted ++ " deleted"

/-- Progress 95, metadata upsert, progress 100 and result construction
(lines 229-256 of the indexer). -/
def finishRun (env : IndexEnv) (deltaOnly : Bool) (totalFiles deletedCount : Nat)
    (st : WalkState) : RunOutput :=
  let st1 := { st with events := st.events ++
      [JobEvent.progress 95 (some "Saving project metadata...")] }
  match env.upsert with
  | .error e =>
    ⟨.error e, st1.store, st1.ops,
      st1.events ++ [.log ("Error during indexing: " ++ e) "error"]⟩
  | .ok _ =>
    let st2 := { st1 with events := st1.events ++
        [JobEvent.progress 100 (some "Indexing completed successfully")] }
    let st3 := if deltaOnly then
        { st2 with events := st2.events ++
            [.log (deltaLogMsg st.skipped st.updated st.added deletedCount) "success"] }
      else st2
    ⟨.ok ⟨st.processed, st.documents.length, totalFiles,
        if deltaOnly then some ⟨st.skipped, st.updated, st.added, deletedCount, totalFiles⟩
        else none⟩,
      st3.store, st3.ops, st3.events⟩

/-- The prior-snapshot map a delta run loads (`getExistingFiles`); a full
run loads nothing. -/
def runExisting (projectId : String) (deltaOnly : Bool) (store0 : List StoredDoc) :
    List (String × FileMeta) :=
  if deltaOnly then getExistingFiles projectId store0 else []

/-- The log/progress events issued before the walk starts. -/
def initialEvents (dirPath projectId excludesText : String) (deltaOnly : Bool)
    (store0 : List StoredDoc) (files : List String) : List JobEvent :=
  [JobEvent.log ("Starting " ++ (if deltaOnly then "delta " else "") ++
      "indexing for project: " ++ projectId) "info",
   .log ("Directory: " ++ dirPath) "info",
   .log ("Excluding: " ++ excludesText) "info",
   .progress 5 (some "Scanning directory..."),
   .log ("Found " ++ toString files.length ++ " files, " ++
     toString (files.filter isTextFile).length ++ " text files to " ++
     (if deltaOnly then "check for changes" else "index")) "info",
   .progress 10 (some ("Found " ++ toString (files.filter isTextFile).length ++
     " files to process"))] ++
  (if deltaOnly then
    [JobEvent.log ("Found " ++ toString (runExisting projectId deltaOnly store0).length ++
       " existing files in index") "info",
     .progress 15 (some "Loaded existing file metadata")]
   else [])

/-- The whole walk loop over the globbed file list. -/
def runWalk (env : IndexEnv) (dirPath projectId excludesText : String)
    (deltaOnly : Bool) (store0 : List StoredDoc) (files : List String) : WalkState :=
  files.foldl
    (processFile env projectId deltaOnly (runExisting projectId deltaOnly store0)
      (files.filter isTextFile).length)
    ⟨[], 0, 0, 0, 0, 0, [], store0, [],
      initialEvents dirPath projectId excludesText deltaOnly store0 files⟩

/-- The deletion-reconciliation loop: purge the chunks of each stale path. -/
def deletionFold (projectId : String) (dfs : List String) (st : WalkState) : WalkState :=
  dfs.foldl (fun s f =>
    { s with store := removeFileChunks projectId f s.store,
             ops := s.ops ++ [StoreOp.removeChunks projectId f] }) st

/-- The stale paths of a delta run: in the prior snapshot but not walked. -/
def runDeletedFiles (env : IndexEnv) (dirPath projectId excludesText : String)
    (deltaOnly : Bool) (store0 : List StoredDoc) (files : List String) : List String :=
  if deltaOnly then
    ((runExisting projectId deltaOnly store0).map Prod.fst).filter
      (fun f => ¬ (runWalk env dirPath projectId excludesText deltaOnly store0
        files).currentFiles.contains f)
  else []

/-- The walk state with the `87%` deletion-phase progress event appended. -/
def walkWith87 (env : IndexEnv) (dirPath projectId excludesText : String)
    (deltaOnly : Bool) (store0 : List StoredDoc) (files : List String) : WalkState :=
  { runWalk env dirPath projectId excludesText deltaOnly store0 files with
    events := (runWalk env dirPath projectId excludesText deltaOnly store0 files).events ++
      [JobEvent.progress 87 (some "Checking for deleted files...")] }

/-- Walk state after the deletion-reconciliation phase (with its progress
and summary events). -/
def postDeletion (env : IndexEnv) (dirPath projectId excludesText : String)
    (deltaOnly : Bool) (store0 : List StoredDoc) (files : List String) : WalkState :=
  if deltaOnly then
    if 0 < (runDeletedFiles env dirPath projectId excludesText deltaOnly store0
        files).length then
      { deletionFold projectId
          (runDeletedFiles env dirPath projectId excludesText deltaOnly store0 files)
          (walkWith87 env dirPath projectId excludesText deltaOnly store0 files) with
        events := (deletionFold projectId
          (runDeletedFiles env dirPath projectId excludesText deltaOnly store0 files)
          (walkWith87 env dirPath projectId excludesText deltaOnly store0 files)).events ++
          [.log ("Removed " ++ toString (runDeletedFiles env dirPath projectId
            excludesText deltaOnly store0 files).length ++
            " deleted files from index") "info"] }
    else
      deletionFold projectId
        (runDeletedFiles env dirPath projectId excludesText deltaOnly store0 files)
        (walkWith87 env dirPath projectId excludesText deltaOnly store0 files)
  else runWalk env dirPath projectId excludesText deltaOnly store0 files

/-- `FileIndexer.indexDirectory(dirPath, projectId, excludePatterns,
deltaOnly, jobId)` against the initial store `store0`; `excludesText` stands
for `allExcludes.join(', ')` (it only appears in log text). -/
def indexDirectory (env : IndexEnv) (dirPath projectId excludesText : String)
    (deltaOnly : Bool) (store0 : List StoredDoc) : RunOutput :=
  match env.glob with
  | .error e =>
    ⟨.error e, store0, [],
      [JobEvent.log ("Starting " ++ (if deltaOnly then "delta " else "") ++
          "indexing for project: " ++ projectId) "info",
       .log ("Directory: " ++ dirPath) "info",
       .log ("Excluding: " ++ excludesText) "info",
       .progress 5 (some "Scanning directory...")] ++
        [.log ("Error during indexing: " ++ e) "error"]⟩
  | .ok files =>
    let totalFiles := (files.filter isTextFile).length
    let deletedFiles := runDeletedFiles env dirPath projectId excludesText deltaOnly
      store0 files
    let st2 := postDeletion env dirPath projectId excludesText deltaOnly store0 files
    if 0 < st2.documents.length then
      let st3 := { st2 with events := st2.events ++
          [JobEvent.progress 90 (some "Saving documents to database...")] }
      match env.insert with
      | .error e =>
        ⟨.error e, st3.store, st3.ops,
          st3.events ++ [.log ("Error during indexing: " ++ e) "error"]⟩
      | .ok _ =>
        finishRun env deltaOnly totalFiles deletedFiles.length
          { st3 with store := st3.store ++ st2.documents,
                     ops := st3.ops ++ [.bulkInsert st2.documents],
                     events := st3.events ++
                       [.log ("Successfully indexed " ++ toString st2.documents.length ++
                         " document chunks for project " ++ projectId) "success"] }
    else
      finishRun env deltaOnly totalFiles deletedFiles.length st2

/-! ### Per-step characterization of the walk -/

theorem embedLoop_cons (env : IndexEnv) (projectId file : String) (fileSize : Nat)
    (mtime : Int) (contentHash : String) (total i : Nat) (c : Chunk)
    (rest : List Chunk) (acc : List StoredDoc) :
    embedLoop env projectId file fileSize mtime contentHash total i (c :: rest) acc =
      match env.embed c.content with
      | .error e => (acc, some e)
      | .ok emb =>
        embedLoop env projectId file fileSize mtime contentHash total (i + 1) rest
          (acc ++ [mkDoc projectId file i total c emb fileSize mtime contentHash]) := rfl

theorem embedErr_cons (env : IndexEnv) (c : Chunk) (rest : List Chunk) :
    embedErr env (c :: rest) =
      match env.embed c.content with
      | .error e => some e
      | .ok _ => embedErr env rest := rfl

theorem embedLoop_spec (env : IndexEnv) (projectId file : String) (fileSize : Nat)
    (mtime : Int) (contentHash : String) (total : Nat) :
    ∀ (chunks : List Chunk) (i : Nat) (acc : List StoredDoc),
      (embedLoop env projectId file fileSize mtime contentHash total i chunks acc).2 =
        embedErr env chunks ∧
      ∃ newDocs,
        (embedLoop env projectId file fileSize mtime contentHash total i chunks acc).1 =
          acc ++ newDocs ∧ ∀ d ∈ newDocs, d.filePath = file := by
  intro chunks
  induction chunks with
  | nil => exact fun i acc => ⟨rfl, [], by rw [List.append_nil]; rfl, by simp⟩
  | cons c rest ih =>
    intro i acc
    cases hemb : env.embed c.content with
    | error e =>
      refine ⟨?_, [], ?_, by simp⟩
      · rw [embedLoop_cons, hemb, embedErr_cons, hemb]
      · rw [embedLoop_cons, hemb, List.append_nil]
    | ok emb =>
      obtain ⟨h1, newDocs, h2, h3⟩ := ih (i + 1)
        (acc ++ [mkDoc projectId file i total c emb fileSize mtime contentHash])
      refine ⟨?_, mkDoc projectId file i total c emb fileSize mtime contentHash :: newDocs,
        ?_, ?_⟩
      · rw [embedLoop_cons, hemb, embedErr_cons, hemb]
        exact h1
      · rw [embedLoop_cons, hemb, h2, List.append_assoc]
        rfl
      · intro d hd
        rcases List.mem_cons.mp hd with rfl | hd
        · rfl
        · exact h3 d hd

theorem embedChunks_spec (env : IndexEnv) (projectId file : String) (fileSize : Nat)
    (mtime : Int) (contentHash : String) (chunks : List Chunk) :
    (embedChunks env projectId file fileSize mtime contentHash chunks).2 =
      embedErr env chunks ∧
    ∀ d ∈ (embedChunks env projectId file fileSize mtime contentHash chunks).1,
      d.filePath = file := by
  obtain ⟨h1, newDocs, h2, h3⟩ :=
    embedLoop_spec env projectId file fileSize mtime contentHash chunks.length chunks 0 []
  refine ⟨h1, ?_⟩
  intro d hd
  unfold embedChunks at hd
  rw [h2] at hd
  simp only [List.nil_append] at hd
  exact h3 d hd

theorem indexContent_spec (env : IndexEnv) (projectId file content : String)
    (mtime : Int) (contentHash : String) (deltaOnly : Bool) (totalFiles : Nat)
    (st : WalkState) :
    (indexContent env projectId file content mtime contentHash deltaOnly totalFiles st).currentFiles = st.currentFiles ∧
    (indexContent env projectId file content mtime contentHash deltaOnly totalFiles st).fileIndex = st.fileIndex ∧
    (indexContent env projectId file content mtime contentHash deltaOnly totalFiles st).skipped = st.skipped ∧
    (indexContent env projectId file content mtime contentHash deltaOnly totalFiles st).updated = st.updated ∧
    (indexContent env projectId file content mtime contentHash deltaOnly totalFiles st).added = st.added ∧
    (indexContent env projectId file content mtime contentHash deltaOnly totalFiles st).ops = st.ops ∧
    (indexContent env projectId file content mtime contentHash deltaOnly totalFiles st).store = st.store ∧
    (indexContent env projectId file content mtime contentHash deltaOnly totalFiles st).processed =
      st.processed +
        (if (embedErr env (chunkContent content file)).isNone then 1 else 0) ∧
    (∃ newDocs,
      (indexContent env projectId file content mtime contentHash deltaOnly totalFiles st).documents =
        st.documents ++ newDocs ∧ ∀ d ∈ newDocs, d.filePath = file) ∧
    (∃ newEvents,
      (indexContent env projectId file content mtime contentHash deltaOnly totalFiles st).events =
        st.events ++ newEvents) := by
  obtain ⟨herr, hdocs⟩ := embedChunks_spec env projectId file content.length mtime
    contentHash (chunkContent content file)
  simp only [indexContent]
  rw [herr]
  cases hE : embedErr env (chunkContent content file) with
  | some e =>
    refine ⟨rfl, rfl, rfl, rfl, rfl, rfl, rfl, by simp, ?_, ?_⟩
    · exact ⟨_, rfl, hdocs⟩
    · exact ⟨_, rfl⟩
  | none =>
    by_cases hmod : (st.processed + 1) % 10 = 0
    · rw [if_pos hmod]
      refine ⟨rfl, rfl, rfl, rfl, rfl, rfl, rfl, by simp, ?_, ?_⟩
      · exact ⟨_, rfl, hdocs⟩
      · exact ⟨_, by rw [List.append_assoc]⟩
    · rw [if_neg hmod]
      refine ⟨rfl, rfl, rfl, rfl, rfl, rfl, rfl, by simp, ?_, ?_⟩
      · exact ⟨_, rfl, hdocs⟩
      · exact ⟨_, rfl⟩

/-- Complete characterization of one walk iteration in terms of
`classifyFile` and `fileSucceeds`. -/
theorem processFile_spec (env : IndexEnv) (projectId : String) (deltaOnly : Bool)
    (existing : List (String × FileMeta)) (totalFiles : Nat) (st : WalkState)
    (file : String) :
    (processFile env projectId deltaOnly existing totalFiles st file).currentFiles =
      st.currentFiles ++ [file] ∧
    (processFile env projectId deltaOnly existing totalFiles st file).fileIndex =
      st.fileIndex + (if isTextFile file then 1 else 0) ∧
    (processFile env projectId deltaOnly existing totalFiles st file).skipped =
      st.skipped + (if classifyFile env deltaOnly existing file = .unchanged then 1 else 0) ∧
    (processFile env projectId deltaOnly existing totalFiles st file).updated =
      st.updated + (if classifyFile env deltaOnly existing file = .updatedC then 1 else 0) ∧
    (processFile env projectId deltaOnly existing totalFiles st file).added =
      st.added + (if classifyFile env deltaOnly existing file = .addedC then 1 else 0) ∧
    (processFile env projectId deltaOnly existing totalFiles st file).processed =
      st.processed + (if fileSucceeds env deltaOnly existing file then 1 else 0) ∧
    (processFile env projectId deltaOnly existing totalFiles st file).ops =
      st.ops ++ (if classifyFile env deltaOnly existing file = .updatedC then
        [StoreOp.removeChunks projectId file] else []) ∧
    (processFile env projectId deltaOnly existing totalFiles st file).store =
      (if classifyFile env deltaOnly existing file = .updatedC then
        removeFileChunks projectId file st.store else st.store) ∧
    (∃ newDocs,
      (processFile env projectId deltaOnly existing totalFiles st file).documents =
        st.documents ++ newDocs ∧ ∀ d ∈ newDocs, d.filePath = file ∧
          (classifyFile env deltaOnly existing file = .updatedC ∨
           classifyFile env deltaOnly existing file = .addedC ∨
           classifyFile env deltaOnly existing file = .full)) ∧
    (∃ newEvents,
      (processFile env projectId deltaOnly existing totalFiles st file).events =
        st.events ++ newEvents) := by
  by_cases htext : isTextFile file
  · simp only [processFile, if_pos htext]
    cases hfs : env.fs file with
    | error e =>
      dsimp only
      have hclass : classifyFile env deltaOnly existing file = .readError := by
        simp [classifyFile, htext, hfs]
      have hsucc : fileSucceeds env deltaOnly existing file = false := by
        simp [fileSucceeds, hfs]
      refine ⟨rfl, by simp [htext], ?_, ?_, ?_, ?_, ?_, ?_, ⟨[], by simp, by simp⟩,
        ⟨_, rfl⟩⟩ <;> simp [hclass, hsucc]
    | ok entry =>
      dsimp only
      by_cases hsize : 1024 * 1024 < entry.content.length
      · rw [if_pos hsize]
        have hclass : classifyFile env deltaOnly existing file = .tooLarge := by
          simp [classifyFile, htext, hfs, hsize]
        have hsucc : fileSucceeds env deltaOnly existing file = false := by
          simp [fileSucceeds, hfs, hclass]
        refine ⟨rfl, by simp [htext], ?_, ?_, ?_, ?_, ?_, ?_, ⟨[], by simp, by simp⟩,
          ⟨_, rfl⟩⟩ <;> simp [hclass, hsucc]
      · rw [if_neg hsize]
        cases deltaOnly with
        | true =>
          rw [if_pos rfl]
          cases hlook : lookupMeta existing file with
          | some ex =>
            dsimp only
            by_cases htriple : ex.contentHash = env.hash entry.content ∧
                ex.fileSize = entry.content.length ∧ entry.mtime ≤ ex.lastModified
            · rw [if_pos htriple]
              have hclass : classifyFile env true existing file = .unchanged := by
                simp only [classifyFile, htext, if_true, hfs, if_neg hsize, hlook]
                rw [if_pos htriple]
              have hsucc : fileSucceeds env true existing file = false := by
                simp [fileSucceeds, hfs, hclass]
              refine ⟨rfl, by simp [htext], ?_, ?_, ?_, ?_, ?_, ?_,
                ⟨[], by simp, by simp⟩, ⟨[], by simp⟩⟩ <;> simp [hclass, hsucc]
            · rw [if_neg htriple]
              have hclass : classifyFile env true existing file = .updatedC := by
                simp only [classifyFile, htext, if_true, hfs, if_neg hsize, hlook]
                rw [if_neg htriple]
              have hsucc : fileSucceeds env true existing file =
                  (embedErr env (chunkContent entry.content file)).isNone := by
                simp [fileSucceeds, hfs, hclass]
              obtain ⟨h1, h2, h3, h4, h5, h6, h7, h8, ⟨nd, hnd, hndf⟩, ⟨ne2, hne2⟩⟩ :=
                indexContent_spec env projectId file entry.content entry.mtime
                  (env.hash entry.content) true totalFiles
                  { st with updated := st.updated + 1,
                            fileIndex := st.fileIndex + 1,
                            currentFiles := st.currentFiles ++ [file],
                            store := removeFileChunks projectId file st.store,
                            ops := st.ops ++ [StoreOp.removeChunks projectId file] }
              refine ⟨by rw [h1], by rw [h2], by rw [h3]; simp [hclass],
                by rw [h4]; simp [hclass], by rw [h5]; simp [hclass],
                by rw [h8, hsucc],
                by rw [h6]; simp [hclass], by rw [h7]; simp [hclass],
                ⟨nd, by rw [hnd], fun d hd => ⟨hndf d hd, Or.inl hclass⟩⟩,
                ⟨_, by rw [hne2]⟩⟩
          | none =>
            dsimp only
            have hclass : classifyFile env true existing file = .addedC := by
              simp only [classifyFile, htext, if_true, hfs, if_neg hsize, hlook]
            have hsucc : fileSucceeds env true existing file =
                (embedErr env (chunkContent entry.content file)).isNone := by
              simp [fileSucceeds, hfs, hclass]
            obtain ⟨h1, h2, h3, h4, h5, h6, h7, h8, ⟨nd, hnd, hndf⟩, ⟨ne2, hne2⟩⟩ :=
              indexContent_spec env projectId file entry.content entry.mtime
                (env.hash entry.content) true totalFiles
                { st with added := st.added + 1,
                          fileIndex := st.fileIndex + 1,
                          currentFiles := st.currentFiles ++ [file] }
            refine ⟨by rw [h1], by rw [h2], by rw [h3]; simp [hclass],
              by rw [h4]; simp [hclass], by rw [h5]; simp [hclass],
              by rw [h8, hsucc],
              by rw [h6]; simp [hclass], by rw [h7]; simp [hclass],
              ⟨nd, by rw [hnd], fun d hd => ⟨hndf d hd, Or.inr (Or.inl hclass)⟩⟩,
              ⟨_, by rw [hne2]⟩⟩
        | false =>
          rw [if_neg (by decide)]
          have hclass : classifyFile env false existing file = .full := by
            simp [classifyFile, htext, hfs, hsize]
          have hsucc : fileSucceeds env false existing file =
              (embedErr env (chunkContent entry.content file)).isNone := by
            simp [fileSucceeds, hfs, hclass]
          obtain ⟨h1, h2, h3, h4, h5, h6, h7, h8, ⟨nd, hnd, hndf⟩, ⟨ne2, hne2⟩⟩ :=
            indexContent_spec env projectId file entry.content entry.mtime
              (env.hash entry.content) false totalFiles
              { st with fileIndex := st.fileIndex + 1,
                        currentFiles := st.currentFiles ++ [file] }
          refine ⟨by rw [h1], by rw [h2], by rw [h3]; simp [hclass],
            by rw [h4]; simp [hclass], by rw [h5]; simp [hclass],
            by rw [h8, hsucc],
            by rw [h6]; simp [hclass], by rw [h7]; simp [hclass],
            ⟨nd, by rw [hnd], fun d hd => ⟨hndf d hd, Or.inr (Or.inr hclass)⟩⟩,
            ⟨_, by rw [hne2]⟩⟩
  · have hclass : classifyFile env deltaOnly existing file = .nonText := by
      simp [classifyFile, htext]
    have hsucc : fileSucceeds env deltaOnly existing file = false := by
      cases hfs : env.fs file with
      | error e => simp [fileSucceeds, hfs]
      | ok entry => simp [fileSucceeds, hfs, hclass]
    simp only [processFile, if_neg htext]
    refine ⟨?_, ?_, ?_, ?_, ?_, ?_, ?_, ?_, ⟨[], ?_, ?_⟩, ⟨[], ?_⟩⟩ <;>
      simp [hclass, hsucc]

/-- `decide`-valued classification test, for counting. -/
def classEq (env : IndexEnv) (deltaOnly : Bool) (existing : List (String × FileMeta))
    (cls : FileClass) (f : String) : Bool :=
  decide (classifyFile env deltaOnly existing f = cls)

theorem mem_removeFileChunks {p f : String} {s : List StoredDoc} {d : StoredDoc}
    (h : d ∈ removeFileChunks p f s) :
    d ∈ s ∧ ¬ (d.projectId = p ∧ d.filePath = f) := by
  unfold removeFileChunks at h
  obtain ⟨h1, h2⟩ := List.mem_filter.mp h
  refine ⟨h1, ?_⟩
  have h3 : ¬ d.projectId = p ∨ ¬ d.filePath = f := by simpa using h2
  exact not_and_or.mpr h3

theorem removeFileChunks_not_mem {p f : String} {s : List StoredDoc} {d : StoredDoc}
    (h : d ∈ removeFileChunks p f s) : ¬ (d.projectId = p ∧ d.filePath = f) :=
  (mem_removeFileChunks h).2

/-- Invariants of the whole walk, relative to an arbitrary initial state:
the visited set, the counter values, the store-operation suffix, the
document batch and the store shrinkage are all determined by
`classifyFile`/`fileSucceeds` over the file list. -/
theorem walk_spec (env : IndexEnv) (projectId : String) (deltaOnly : Bool)
    (existing : List (String × FileMeta)) (totalFiles : Nat) (files : List String)
    (st0 : WalkState) :
    (files.foldl (processFile env projectId deltaOnly existing totalFiles) st0).currentFiles =
      st0.currentFiles ++ files ∧
    (files.foldl (processFile env projectId deltaOnly existing totalFiles) st0).fileIndex =
      st0.fileIndex + files.countP isTextFile ∧
    (files.foldl (processFile env projectId deltaOnly existing totalFiles) st0).skipped =
      st0.skipped + files.countP (classEq env deltaOnly existing .unchanged) ∧
    (files.foldl (processFile env projectId deltaOnly existing totalFiles) st0).updated =
      st0.updated + files.countP (classEq env deltaOnly existing .updatedC) ∧
    (files.foldl (processFile env projectId deltaOnly existing totalFiles) st0).added =
      st0.added + files.countP (classEq env deltaOnly existing .addedC) ∧
    (files.foldl (processFile env projectId deltaOnly existing totalFiles) st0).processed =
      st0.processed + files.countP (fileSucceeds env deltaOnly existing) ∧
    (∃ newOps,
      (files.foldl (processFile env projectId deltaOnly existing totalFiles) st0).ops =
        st0.ops ++ newOps ∧
      (∀ op ∈ newOps, ∃ g ∈ files, op = StoreOp.removeChunks projectId g ∧
        classifyFile env deltaOnly existing g = .updatedC) ∧
      (∀ g ∈ files, classifyFile env deltaOnly existing g = .updatedC →
        StoreOp.removeChunks projectId g ∈ newOps)) ∧
    (∃ newDocs,
      (files.foldl (processFile env projectId deltaOnly existing totalFiles) st0).documents =
        st0.documents ++ newDocs ∧
      ∀ d ∈ newDocs, ∃ g ∈ files, d.filePath = g ∧
        (classifyFile env deltaOnly existing g = .updatedC ∨
         classifyFile env deltaOnly existing g = .addedC ∨
         classifyFile env deltaOnly existing g = .full)) ∧
    ((∀ d ∈ (files.foldl (processFile env projectId deltaOnly existing totalFiles) st0).store,
        d ∈ st0.store) ∧
     (∀ g ∈ files, classifyFile env deltaOnly existing g = .updatedC →
        ∀ d ∈ (files.foldl (processFile env projectId deltaOnly existing totalFiles) st0).store,
          ¬ (d.projectId = projectId ∧ d.filePath = g))) ∧
    (∃ newEvents,
      (files.foldl (processFile env projectId deltaOnly existing totalFiles) st0).events =
        st0.events ++ newEvents) := by
  induction files generalizing st0 with
  | nil =>
    refine ⟨by simp, by simp, by simp, by simp, by simp, by simp,
      ⟨[], by simp, by simp, by simp⟩, ⟨[], by simp, by simp⟩,
      ⟨fun d hd => hd, by simp⟩, ⟨[], by simp⟩⟩
  | cons f fs ih =>
    obtain ⟨s1, s2, s3, s4, s5, s6, s7, s8, ⟨sDocs, hsDocs, hsDocsP⟩, ⟨sEv, hsEv⟩⟩ :=
      processFile_spec env projectId deltaOnly existing totalFiles st0 f
    obtain ⟨i1, i2, i3, i4, i5, i6, ⟨iOps, hiOps, hiOpsP, hiOpsC⟩,
      ⟨iDocs, hiDocs, hiDocsP⟩, ⟨iStore1, iStore2⟩, ⟨iEv, hiEv⟩⟩ :=
      ih (processFile env projectId deltaOnly existing totalFiles st0 f)
    rw [List.foldl_cons]
    refine ⟨?_, ?_, ?_, ?_, ?_, ?_, ?_, ?_, ⟨?_, ?_⟩, ?_⟩
    · rw [i1, s1]
      simp
    · rw [i2, s2, List.countP_cons]
      omega
    · rw [i3, s3, List.countP_cons]
      have : (if classEq env deltaOnly existing FileClass.unchanged f = true then 1 else 0) =
          (if classifyFile env deltaOnly existing f = FileClass.unchanged then 1 else 0) := by
        simp [classEq]
      omega
    · rw [i4, s4, List.countP_cons]
      have : (if classEq env deltaOnly existing FileClass.updatedC f = true then 1 else 0) =
          (if classifyFile env deltaOnly existing f = FileClass.updatedC then 1 else 0) := by
        simp [classEq]
      omega
    · rw [i5, s5, List.countP_cons]
      have : (if classEq env deltaOnly existing FileClass.addedC f = true then 1 else 0) =
          (if classifyFile env deltaOnly existing f = FileClass.addedC then 1 else 0) := by
        simp [classEq]
      omega
    · rw [i6, s6, List.countP_cons]
      omega
    · refine ⟨(if classifyFile env deltaOnly existing f = .updatedC then
        [StoreOp.removeChunks projectId f] else []) ++ iOps, ?_, ?_, ?_⟩
      · rw [hiOps, s7, List.append_assoc]
      · intro op hop
        rcases List.mem_append.mp hop with h | h
        · by_cases hcl : classifyFile env deltaOnly existing f = .updatedC
          · rw [if_pos hcl] at h
            simp only [List.mem_singleton] at h
            exact ⟨f, List.mem_cons_self f fs, h, hcl⟩
          · rw [if_neg hcl] at h
            simp at h
        · obtain ⟨g, hg, hop2, hcl⟩ := hiOpsP op h
          exact ⟨g, List.mem_cons_of_mem f hg, hop2, hcl⟩
      · intro g hg hcl
        rcases List.mem_cons.mp hg with rfl | hg
        · exact List.mem_append.mpr (Or.inl (by rw [if_pos hcl]; simp))
        · exact List.mem_append.mpr (Or.inr (hiOpsC g hg hcl))
    · refine ⟨sDocs ++ iDocs, ?_, ?_⟩
      · rw [hiDocs, hsDocs, List.append_assoc]
      · intro d hd
        rcases List.mem_append.mp hd with h | h
        · obtain ⟨hfp, hcl⟩ := hsDocsP d h
          exact ⟨f, List.mem_cons_self f fs, hfp, hcl⟩
        · obtain ⟨g, hg, hfp, hcl⟩ := hiDocsP d h
          exact ⟨g, List.mem_cons_of_mem f hg, hfp, hcl⟩
    · intro d hd
      have hd1 := iStore1 d hd
      rw [s8] at hd1
      by_cases hcl : classifyFile env deltaOnly existing f = .updatedC
      · rw [if_pos hcl] at hd1
        exact (mem_removeFileChunks hd1).1
      · rw [if_neg hcl] at hd1
        exact hd1
    · intro g hg hcl d hd
      rcases List.mem_cons.mp hg with rfl | hg
      · have hd1 := iStore1 d hd
        rw [s8, if_pos hcl] at hd1
        exact removeFileChunks_not_mem hd1
      · exact iStore2 g hg hcl d hd
    · exact ⟨sEv ++ iEv, by rw [hiEv, hsEv, List.append_assoc]⟩

theorem deletionFold_spec (projectId : String) (dfs : List String) (st : WalkState) :
    (deletionFold projectId dfs st).documents = st.documents ∧
    (deletionFold projectId dfs st).processed = st.processed ∧
    (deletionFold projectId dfs st).skipped = st.skipped ∧
    (deletionFold projectId dfs st).updated = st.updated ∧
    (deletionFold projectId dfs st).added = st.added ∧
    (deletionFold projectId dfs st).currentFiles = st.currentFiles ∧
    (deletionFold projectId dfs st).events = st.events ∧
    (∃ newOps, (deletionFold projectId dfs st).ops = st.ops ++ newOps ∧
      (∀ op ∈ newOps, ∃ g ∈ dfs, op = StoreOp.removeChunks projectId g) ∧
      (∀ g ∈ dfs, StoreOp.removeChunks projectId g ∈ newOps)) ∧
    (∀ d ∈ (deletionFold projectId dfs st).store, d ∈ st.store) ∧
    (∀ g ∈ dfs, ∀ d ∈ (deletionFold projectId dfs st).store,
      ¬ (d.projectId = projectId ∧ d.filePath = g)) := by
  induction dfs generalizing st with
  | nil =>
    exact ⟨rfl, rfl, rfl, rfl, rfl, rfl, rfl,
      ⟨[], by simp [deletionFold], by simp, by simp⟩, fun d hd => hd, by simp⟩
  | cons g gs ih =>
    obtain ⟨i1, i2, i3, i4, i5, i6, i7, ⟨iOps, hiOps, hiOpsP, hiOpsC⟩, iSub, iNot⟩ :=
      ih { st with store := removeFileChunks projectId g st.store,
                   ops := st.ops ++ [StoreOp.removeChunks projectId g] }
    refine ⟨i1, i2, i3, i4, i5, i6, i7,
      ⟨StoreOp.removeChunks projectId g :: iOps, ?_, ?_, ?_⟩, ?_, ?_⟩
    · show (deletionFold projectId gs _).ops = _
      rw [hiOps]
      simp
    · intro op hop
      rcases List.mem_cons.mp hop with rfl | hop
      · exact ⟨g, List.mem_cons_self g gs, rfl⟩
      · obtain ⟨g2, hg2, rfl⟩ := hiOpsP op hop
        exact ⟨g2, List.mem_cons_of_mem g hg2, rfl⟩
    · intro g2 hg2
      rcases List.mem_cons.mp hg2 with rfl | hg2
      · exact List.mem_cons_self _ _
      · exact List.mem_cons_of_mem _ (hiOpsC g2 hg2)
    · intro d hd
      exact (mem_removeFileChunks (iSub d hd)).1
    · intro g2 hg2 d hd
      rcases List.mem_cons.mp hg2 with rfl | hg2
      · exact (mem_removeFileChunks (iSub d hd)).2
      · exact iNot g2 hg2 d hd

theorem finishRun_ok (env : IndexEnv) (deltaOnly : Bool) (totalFiles deletedCount : Nat)
    (st : WalkState) (hup : env.upsert = .ok ()) :
    (finishRun env deltaOnly totalFiles deletedCount st).result =
      .ok ⟨st.processed, st.documents.length, totalFiles,
        if deltaOnly then some ⟨st.skipped, st.updated, st.added, deletedCount, totalFiles⟩
        else none⟩ ∧
    (finishRun env deltaOnly totalFiles deletedCount st).store = st.store ∧
    (finishRun env deltaOnly totalFiles deletedCount st).ops = st.ops ∧
    (∃ tail, (finishRun env deltaOnly totalFiles deletedCount st).events =
      st.events ++ tail) := by
  unfold finishRun
  rw [hup]
  cases deltaOnly with
  | true =>
    refine ⟨rfl, rfl, rfl,
      ⟨[JobEvent.progress 95 (some "Saving project metadata..."),
        JobEvent.progress 100 (some "Indexing completed successfully"),
        JobEvent.log (deltaLogMsg st.skipped st.updated st.added deletedCount)
          "success"], ?_⟩⟩
    simp
  | false =>
    refine ⟨rfl, rfl, rfl,
      ⟨[JobEvent.progress 95 (some "Saving project metadata..."),
        JobEvent.progress 100 (some "Indexing completed successfully")], ?_⟩⟩
    simp

theorem finishRun_error (env : IndexEnv) (deltaOnly : Bool) (totalFiles deletedCount : Nat)
    (st : WalkState) (e : String) (hup : env.upsert = .error e) :
    (finishRun env deltaOnly totalFiles deletedCount st).result = .error e ∧
    (finishRun env deltaOnly totalFiles deletedCount st).store = st.store ∧
    (finishRun env deltaOnly totalFiles deletedCount st).ops = st.ops ∧
    (∃ tail, (finishRun env deltaOnly totalFiles deletedCount st).events =
      st.events ++ tail) := by
  unfold finishRun
  rw [hup]
  refine ⟨rfl, rfl, rfl,
    ⟨[JobEvent.progress 95 (some "Saving project metadata..."),
      JobEvent.log ("Error during indexing: " ++ e) "error"], ?_⟩⟩
  simp

theorem finishRun_frame (env : IndexEnv) (deltaOnly : Bool) (totalFiles deletedCount : Nat)
    (st : WalkState) :
    (finishRun env deltaOnly totalFiles deletedCount st).store = st.store ∧
    (finishRun env deltaOnly totalFiles deletedCount st).ops = st.ops ∧
    (∃ tail, (finishRun env deltaOnly totalFiles deletedCount st).events =
      st.events ++ tail) := by
  cases hup : env.upsert with
  | error e => exact (finishRun_error env deltaOnly totalFiles deletedCount st e hup).2
  | ok u =>
    cases u
    exact (finishRun_ok env deltaOnly totalFiles deletedCount st hup).2

theorem finishRun_events_ext (env : IndexEnv) (deltaOnly : Bool)
    (totalFiles deletedCount : Nat) (st : WalkState) (base mid : List JobEvent)
    (h : st.events = base ++ mid) :
    ∃ tail, (finishRun env deltaOnly totalFiles deletedCount st).events = base ++ tail := by
  obtain ⟨t, ht⟩ := (finishRun_frame env deltaOnly totalFiles deletedCount st).2.2
  exact ⟨mid ++ t, by rw [ht, h, List.append_assoc]⟩

theorem postDeletion_spec (env : IndexEnv) (dirPath projectId excludesText : String)
    (deltaOnly : Bool) (store0 : List StoredDoc) (files : List String) :
    (postDeletion env dirPath projectId excludesText deltaOnly store0 files).documents =
      (runWalk env dirPath projectId excludesText deltaOnly store0 files).documents ∧
    (postDeletion env dirPath projectId excludesText deltaOnly store0 files).processed =
      (runWalk env dirPath projectId excludesText deltaOnly store0 files).processed ∧
    (postDeletion env dirPath projectId excludesText deltaOnly store0 files).skipped =
      (runWalk env dirPath projectId excludesText deltaOnly store0 files).skipped ∧
    (postDeletion env dirPath projectId excludesText deltaOnly store0 files).updated =
      (runWalk env dirPath projectId excludesText deltaOnly store0 files).updated ∧
    (postDeletion env dirPath projectId excludesText deltaOnly store0 files).added =
      (runWalk env dirPath projectId excludesText deltaOnly store0 files).added ∧
    (∃ newOps,
      (postDeletion env dirPath projectId excludesText deltaOnly store0 files).ops =
        (runWalk env dirPath projectId excludesText deltaOnly store0 files).ops ++ newOps ∧
      (∀ op ∈ newOps, ∃ g ∈ runDeletedFiles env dirPath projectId excludesText deltaOnly
          store0 files, op = StoreOp.removeChunks projectId g) ∧
      (∀ g ∈ runDeletedFiles env dirPath projectId excludesText deltaOnly store0 files,
        StoreOp.removeChunks projectId g ∈ newOps)) ∧
    (∀ d ∈ (postDeletion env dirPath projectId excludesText deltaOnly store0 files).store,
      d ∈ (runWalk env dirPath projectId excludesText deltaOnly store0 files).store) ∧
    (∀ g ∈ runDeletedFiles env dirPath projectId excludesText deltaOnly store0 files,
      ∀ d ∈ (postDeletion env dirPath projectId excludesText deltaOnly store0 files).store,
        ¬ (d.projectId = projectId ∧ d.filePath = g)) ∧
    (∃ tail, (postDeletion env dirPath projectId excludesText deltaOnly store0 files).events =
      (runWalk env dirPath projectId excludesText deltaOnly store0 files).events ++ tail) := by
  unfold postDeletion
  cases deltaOnly with
  | false =>
    refine ⟨rfl, rfl, rfl, rfl, rfl, ⟨[], by simp, by simp, ?_⟩, fun d hd => hd, ?_, ⟨[], by simp⟩⟩
    · intro g hg
      simp [runDeletedFiles] at hg
    · intro g hg
      simp [runDeletedFiles] at hg
  | true =>
    rw [if_pos rfl]
    obtain ⟨d1, d2, d3, d4, d5, d6, d7, ⟨dOps, hdOps, hdOpsP, hdOpsC⟩, dSub, dNot⟩ :=
      deletionFold_spec projectId
        (runDeletedFiles env dirPath projectId excludesText true store0 files)
        (walkWith87 env dirPath projectId excludesText true store0 files)
    by_cases hdel : 0 < (runDeletedFiles env dirPath projectId excludesText true store0
        files).length
    · rw [if_pos hdel]
      refine ⟨d1, d2, d3, d4, d5, ⟨dOps, ?_, hdOpsP, hdOpsC⟩, dSub, dNot, ?_⟩
      · rw [hdOps]
        rfl
      · refine ⟨[JobEvent.progress 87 (some "Checking for deleted files..."),
          JobEvent.log ("Removed " ++ toString (runDeletedFiles env dirPath projectId
            excludesText true store0 files).length ++
            " deleted files from index") "info"], ?_⟩
        show (deletionFold _ _ _).events ++ _ = _
        rw [d7]
        show ((runWalk env dirPath projectId excludesText true store0 files).events ++ _) ++ _ = _
        rw [List.append_assoc]
        rfl
    · rw [if_neg hdel]
      refine ⟨d1, d2, d3, d4, d5, ⟨dOps, ?_, hdOpsP, hdOpsC⟩, dSub, dNot, ?_⟩
      · rw [hdOps]
        rfl
      · refine ⟨[JobEvent.progress 87 (some "Checking for deleted files...")], ?_⟩
        rw [d7]
        rfl

theorem indexDirectory_ok (env : IndexEnv) (dirPath projectId excludesText : String)
    (deltaOnly : Bool) (store0 : List StoredDoc) (files : List String)
    (hglob : env.glob = .ok files) (hins : env.insert = .ok ()) (hup : env.upsert = .ok ()) :
    (indexDirectory env dirPath projectId excludesText deltaOnly store0).result =
      .ok ⟨(postDeletion env dirPath projectId excludesText deltaOnly store0 files).processed,
        (postDeletion env dirPath projectId excludesText deltaOnly store0 files).documents.length,
        (files.filter isTextFile).length,
        if deltaOnly then
          some ⟨(postDeletion env dirPath projectId excludesText deltaOnly store0 files).skipped,
            (postDeletion env dirPath projectId excludesText deltaOnly store0 files).updated,
            (postDeletion env dirPath projectId excludesText deltaOnly store0 files).added,
            (runDeletedFiles env dirPath projectId excludesText deltaOnly store0 files).length,
            (files.filter isTextFile).length⟩
        else none⟩ := by
  simp only [indexDirectory, hglob]
  by_cases hdocs : 0 < (postDeletion env dirPath projectId excludesText deltaOnly store0
      files).documents.length
  · rw [if_pos hdocs, hins]
    exact (finishRun_ok env deltaOnly _ _ _ hup).1
  · rw [if_neg hdocs]
    exact (finishRun_ok env deltaOnly _ _ _ hup).1

theorem indexDirectory_ops (env : IndexEnv) (dirPath projectId excludesText : String)
    (deltaOnly : Bool) (store0 : List StoredDoc) (files : List String)
    (hglob : env.glob = .ok files) :
    ∃ insOps, (indexDirectory env dirPath projectId excludesText deltaOnly store0).ops =
      (postDeletion env dirPath projectId excludesText deltaOnly store0 files).ops ++ insOps ∧
      ∀ op ∈ insOps, op = StoreOp.bulkInsert
        (postDeletion env dirPath projectId excludesText deltaOnly store0 files).documents := by
  simp only [indexDirectory, hglob]
  by_cases hdocs : 0 < (postDeletion env dirPath projectId excludesText deltaOnly store0
      files).documents.length
  · rw [if_pos hdocs]
    cases hins : env.insert with
    | error e => exact ⟨[], by simp, by simp⟩
    | ok u =>
      cases u
      refine ⟨[StoreOp.bulkInsert
        (postDeletion env dirPath projectId excludesText deltaOnly store0 files).documents],
        ?_, by simp⟩
      rw [(finishRun_frame env deltaOnly _ _ _).2.1]
  · rw [if_neg hdocs]
    exact ⟨[], by rw [(finishRun_frame env deltaOnly _ _ _).2.1]; simp, by simp⟩

theorem indexDirectory_store_mem (env : IndexEnv) (dirPath projectId excludesText : String)
    (deltaOnly : Bool) (store0 : List StoredDoc) (files : List String)
    (hglob : env.glob = .ok files) :
    ∀ d ∈ (indexDirectory env dirPath projectId excludesText deltaOnly store0).store,
      d ∈ (postDeletion env dirPath projectId excludesText deltaOnly store0 files).store ∨
      d ∈ (postDeletion env dirPath projectId excludesText deltaOnly store0 files).documents := by
  simp only [indexDirectory, hglob]
  by_cases hdocs : 0 < (postDeletion env dirPath projectId excludesText deltaOnly store0
      files).documents.length
  · rw [if_pos hdocs]
    cases hins : env.insert with
    | error e =>
      intro d hd
      exact Or.inl hd
    | ok u =>
      cases u
      intro d hd
      rw [(finishRun_frame env deltaOnly _ _ _).1] at hd
      exact List.mem_append.mp hd
  · rw [if_neg hdocs]
    intro d hd
    rw [(finishRun_frame env deltaOnly _ _ _).1] at hd
    exact Or.inl hd

theorem indexDirectory_events_ext (env : IndexEnv) (dirPath projectId excludesText : String)
    (deltaOnly : Bool) (store0 : List StoredDoc) (files : List String)
    (hglob : env.glob = .ok files) :
    ∃ tail, (indexDirectory env dirPath projectId excludesText deltaOnly store0).events =
      (postDeletion env dirPath projectId excludesText deltaOnly store0 files).events ++
        tail := by
  simp only [indexDirectory, hglob]
  by_cases hdocs : 0 < (postDeletion env dirPath projectId excludesText deltaOnly store0
      files).documents.length
  · rw [if_pos hdocs]
    cases hins : env.insert with
    | error e =>
      refine ⟨[JobEvent.progress 90 (some "Saving documents to database...")] ++
        [JobEvent.log ("Error during indexing: " ++ e) "error"], ?_⟩
      dsimp only
      rw [List.append_assoc]
    | ok u =>
      cases u
      dsimp only
      exact finishRun_events_ext env deltaOnly _ _ _ _
        ([JobEvent.progress 90 (some "Saving documents to database...")] ++
          [JobEvent.log ("Successfully indexed " ++
            toString (postDeletion env dirPath projectId excludesText deltaOnly store0
              files).documents.length ++ " document chunks for project " ++ projectId)
            "success"])
        (List.append_assoc _ _ _)
  · rw [if_neg hdocs]
    exact finishRun_events_ext env deltaOnly _ _ _ _ [] (List.append_nil _).symm

theorem indexDirectory_glob_error (env : IndexEnv) (dirPath projectId excludesText : String)
    (deltaOnly : Bool) (store0 : List StoredDoc) (e : String)
    (hglob : env.glob = .error e) :
    (indexDirectory env dirPath projectId excludesText deltaOnly store0).result = .error e ∧
    JobEvent.log ("Error during indexing: " ++ e) "error" ∈
      (indexDirectory env dirPath projectId excludesText deltaOnly store0).events := by
  simp only [indexDirectory, hglob]
  exact ⟨trivial, by simp⟩

theorem indexDirectory_insert_error (env : IndexEnv) (dirPath projectId excludesText : String)
    (deltaOnly : Bool) (store0 : List StoredDoc) (files : List String) (e : String)
    (hglob : env.glob = .ok files)
    (hdocs : 0 < (postDeletion env dirPath projectId excludesText deltaOnly store0
      files).documents.length)
    (hins : env.insert = .error e) :
    (indexDirectory env dirPath projectId excludesText deltaOnly store0).result = .error e ∧
    JobEvent.log ("Error during indexing: " ++ e) "error" ∈
      (indexDirectory env dirPath projectId excludesText deltaOnly store0).events := by
  simp only [indexDirectory, hglob]
  rw [if_pos hdocs, hins]
  refine ⟨rfl, ?_⟩
  show JobEvent.log ("Error during indexing: " ++ e) "error" ∈
    (postDeletion env dirPath projectId excludesText deltaOnly store0 files).events ++
      [JobEvent.progress 90 (some "Saving documents to database...")] ++
      [JobEvent.log ("Error during indexing: " ++ e) "error"]
  simp

theorem indexDirectory_upsert_error (env : IndexEnv) (dirPath projectId excludesText : String)
    (deltaOnly : Bool) (store0 : List StoredDoc) (files : List String) (e : String)
    (hglob : env.glob = .ok files) (hup : env.upsert = .error e)
    (hins : env.insert = .ok () ∨
      (postDeletion env dirPath projectId excludesText deltaOnly store0 files).documents = []) :
    (indexDirectory env dirPath projectId excludesText deltaOnly store0).result = .error e := by
  simp only [indexDirectory, hglob]
  by_cases hdocs : 0 < (postDeletion env dirPath projectId excludesText deltaOnly store0
      files).documents.length
  · rw [if_pos hdocs]
    rcases hins with hins | hins
    · rw [hins]
      exact (finishRun_error env deltaOnly _ _ _ e hup).1
    · rw [hins] at hdocs
      simp at hdocs
  · rw [if_neg hdocs]
    exact (finishRun_error env deltaOnly _ _ _ e hup).1

/-! ### Walk invariants at the actual initial state -/

theorem runWalk_spec (env : IndexEnv) (dirPath projectId excludesText : String)
    (deltaOnly : Bool) (store0 : List StoredDoc) (files : List String) :
    (runWalk env dirPath projectId excludesText deltaOnly store0 files).currentFiles =
      files ∧
    (runWalk env dirPath projectId excludesText deltaOnly store0 files).fileIndex =
      files.countP isTextFile ∧
    (runWalk env dirPath projectId excludesText deltaOnly store0 files).skipped =
      files.countP (classEq env deltaOnly (runExisting projectId deltaOnly store0)
        .unchanged) ∧
    (runWalk env dirPath projectId excludesText deltaOnly store0 files).updated =
      files.countP (classEq env deltaOnly (runExisting projectId deltaOnly store0)
        .updatedC) ∧
    (runWalk env dirPath projectId excludesText deltaOnly store0 files).added =
      files.countP (classEq env deltaOnly (runExisting projectId deltaOnly store0)
        .addedC) ∧
    (runWalk env dirPath projectId excludesText deltaOnly store0 files).processed =
      files.countP (fileSucceeds env deltaOnly (runExisting projectId deltaOnly store0)) ∧
    (∀ op ∈ (runWalk env dirPath projectId excludesText deltaOnly store0 files).ops,
      ∃ g ∈ files, op = StoreOp.removeChunks projectId g ∧
        classifyFile env deltaOnly (runExisting projectId deltaOnly store0) g =
          .updatedC) ∧
    (∀ g ∈ files,
      classifyFile env deltaOnly (runExisting projectId deltaOnly store0) g = .updatedC →
      StoreOp.removeChunks projectId g ∈
        (runWalk env dirPath projectId excludesText deltaOnly store0 files).ops) ∧
    (∀ d ∈ (runWalk env dirPath projectId excludesText deltaOnly store0 files).documents,
      ∃ g ∈ files, d.filePath = g ∧
        (classifyFile env deltaOnly (runExisting projectId deltaOnly store0) g =
          .updatedC ∨
         classifyFile env deltaOnly (runExisting projectId deltaOnly store0) g = .addedC ∨
         classifyFile env deltaOnly (runExisting projectId deltaOnly store0) g = .full)) ∧
    (∀ d ∈ (runWalk env dirPath projectId excludesText deltaOnly store0 files).store,
      d ∈ store0) ∧
    (∀ g ∈ files,
      classifyFile env deltaOnly (runExisting projectId deltaOnly store0) g = .updatedC →
      ∀ d ∈ (runWalk env dirPath projectId excludesText deltaOnly store0 files).store,
        ¬ (d.projectId = projectId ∧ d.filePath = g)) ∧
    (∃ tail, (runWalk env dirPath projectId excludesText deltaOnly store0 files).events =
      initialEvents dirPath projectId excludesText deltaOnly store0 files ++ tail) := by
  obtain ⟨h1, h2, h3, h4, h5, h6, ⟨wOps, hwOps, hwOpsP, hwOpsC⟩,
      ⟨wDocs, hwDocs, hwDocsP⟩, ⟨wSub, wNot⟩, ⟨wEv, hwEv⟩⟩ :=
    walk_spec env projectId deltaOnly (runExisting projectId deltaOnly store0)
      ((files.filter isTextFile).length) files
      ⟨[], 0, 0, 0, 0, 0, [], store0, [],
        initialEvents dirPath projectId excludesText deltaOnly store0 files⟩
  unfold runWalk
  refine ⟨by simpa using h1, by simpa using h2, by simpa using h3, by simpa using h4,
    by simpa using h5, by simpa using h6, ?_, ?_, ?_, ?_, ?_, ⟨wEv, by simpa using hwEv⟩⟩
  · intro op hop
    rw [hwOps] at hop
    simp only [List.nil_append] at hop
    exact hwOpsP op hop
  · intro g hg hcl
    rw [hwOps]
    simpa using hwOpsC g hg hcl
  · intro d hd
    rw [hwDocs] at hd
    simp only [List.nil_append] at hd
    exact hwDocsP d hd
  · intro d hd
    simpa using wSub d hd
  · intro g hg hcl d hd
    exact wNot g hg hcl d hd

theorem mem_runDeletedFiles (env : IndexEnv) (dirPath projectId excludesText : String)
    (deltaOnly : Bool) (store0 : List StoredDoc) (files : List String) (g : String)
    (hg : g ∈ runDeletedFiles env dirPath projectId excludesText deltaOnly store0 files) :
    g ∈ (runExisting projectId deltaOnly store0).map Prod.fst ∧ g ∉ files := by
  unfold runDeletedFiles at hg
  cases deltaOnly with
  | false => simp at hg
  | true =>
    rw [if_pos rfl] at hg
    obtain ⟨hmem, hnc⟩ := List.mem_filter.mp hg
    refine ⟨hmem, fun hgf => ?_⟩
    have hcur := (runWalk_spec env dirPath projectId excludesText true store0 files).1
    rw [decide_eq_true_eq] at hnc
    exact hnc (by rw [hcur]; exact List.elem_eq_true_of_mem hgf)

/-- C1: in a delta run, a visited text file of admissible size whose prior
snapshot record matches on hash, size and (monotone) modification time is
classified unchanged and no store operation of the run deletes or inserts a
chunk of that file; with a prior record but a failed match it is classified
updated, a purge of its `(projectId, file)` chunks appears among the remove
operations that all precede any bulk insert, the store at insert time holds
none of its chunks, and it is counted in the `updated` counter; with no prior
record it is classified added and counted in the `added` counter. -/
theorem claim_C1 (env : IndexEnv) (dirPath projectId excludesText : String)
    (store0 : List StoredDoc) (files : List String) (file : String) (entry : FsEntry)
    (hglob : env.glob = .ok files) (hf : file ∈ files)
    (htext : isTextFile file = true) (hfs : env.fs file = .ok entry)
    (hsize : ¬ 1024 * 1024 < entry.content.length) :
    (∀ ex, lookupMeta (runExisting projectId true store0) file = some ex →
      ex.contentHash = env.hash entry.content ∧ ex.fileSize = entry.content.length ∧
        entry.mtime ≤ ex.lastModified →
      classifyFile env true (runExisting projectId true store0) file = .unchanged ∧
      ∀ op ∈ (indexDirectory env dirPath projectId excludesText true store0).ops,
        ¬ opTouches projectId file op) ∧
    (∀ ex, lookupMeta (runExisting projectId true store0) file = some ex →
      ¬ (ex.contentHash = env.hash entry.content ∧ ex.fileSize = entry.content.length ∧
        entry.mtime ≤ ex.lastModified) →
      classifyFile env true (runExisting projectId true store0) file = .updatedC ∧
      (∃ remOps insOps,
        (indexDirectory env dirPath projectId excludesText true store0).ops =
          remOps ++ insOps ∧
        StoreOp.removeChunks projectId file ∈ remOps ∧
        (∀ op ∈ remOps, ∃ q g, op = StoreOp.removeChunks q g) ∧
        (∀ op ∈ insOps, ∃ ds, op = StoreOp.bulkInsert ds)) ∧
      (∀ d ∈ (postDeletion env dirPath projectId excludesText true store0 files).store,
        ¬ (d.projectId = projectId ∧ d.filePath = file)) ∧
      (runWalk env dirPath projectId excludesText true store0 files).updated =
        files.countP (classEq env true (runExisting projectId true store0) .updatedC) ∧
      classEq env true (runExisting projectId true store0) .updatedC file = true) ∧
    (lookupMeta (runExisting projectId true store0) file = none →
      classifyFile env true (runExisting projectId true store0) file = .addedC ∧
      (runWalk env dirPath projectId excludesText true store0 files).added =
        files.countP (classEq env true (runExisting projectId true store0) .addedC) ∧
      classEq env true (runExisting projectId true store0) .addedC file = true) := by
  obtain ⟨rw1, rw2, rw3, rw4, rw5, rw6, rwOpsP, rwOpsC, rwDocsP, rwSub, rwNot, -⟩ :=
    runWalk_spec env dirPath projectId excludesText true store0 files
  obtain ⟨pd1, pd2, pd3, pd4, pd5, ⟨delOps, hpdOps, hdelP, hdelC⟩, pdSub, pdNot, -⟩ :=
    postDeletion_spec env dirPath projectId excludesText true store0 files
  obtain ⟨insOps, hiOps, hiIns⟩ :=
    indexDirectory_ops env dirPath projectId excludesText true store0 files hglob
  refine ⟨?_, ?_, ?_⟩
  · intro ex hlook htriple
    have hclass : classifyFile env true (runExisting projectId true store0) file =
        .unchanged := by
      simp only [classifyFile, htext, if_true, hfs, if_neg hsize, hlook]
      rw [if_pos htriple]
    refine ⟨hclass, ?_⟩
    intro op hop
    rw [hiOps, hpdOps] at hop
    rcases List.mem_append.mp hop with hop | hop
    · rcases List.mem_append.mp hop with hop | hop
      · obtain ⟨g, hg, hop2, hclg⟩ := rwOpsP op hop
        subst hop2
        intro hto
        obtain ⟨-, hgf⟩ := hto
        rw [hgf, hclass] at hclg
        exact absurd hclg (by decide)
      · obtain ⟨g, hgdel, hop2⟩ := hdelP op hop
        subst hop2
        intro hto
        obtain ⟨-, hgf⟩ := hto
        have hnf := (mem_runDeletedFiles env dirPath projectId excludesText true store0
          files g hgdel).2
        rw [hgf] at hnf
        exact hnf hf
    · rw [hiIns op hop]
      intro hto
      obtain ⟨d, hd, -, hdf⟩ := hto
      rw [pd1] at hd
      obtain ⟨g, hg, hfp, hclg⟩ := rwDocsP d hd
      have hgf : g = file := by rw [← hfp, hdf]
      rw [hgf, hclass] at hclg
      rcases hclg with h | h | h <;> exact absurd h (by decide)
  · intro ex hlook htriple
    have hclass : classifyFile env true (runExisting projectId true store0) file =
        .updatedC := by
      simp only [classifyFile, htext, if_true, hfs, if_neg hsize, hlook]
      rw [if_neg htriple]
    refine ⟨hclass, ?_, ?_, rw4, by simp [classEq, hclass]⟩
    · refine ⟨(runWalk env dirPath projectId excludesText true store0 files).ops ++ delOps,
        insOps, ?_, ?_, ?_, ?_⟩
      · rw [hiOps, hpdOps]
      · exact List.mem_append.mpr (Or.inl (rwOpsC file hf hclass))
      · intro op hop
        rcases List.mem_append.mp hop with hop | hop
        · obtain ⟨g, -, hop2, -⟩ := rwOpsP op hop
          exact ⟨projectId, g, hop2⟩
        · obtain ⟨g, -, hop2⟩ := hdelP op hop
          exact ⟨projectId, g, hop2⟩
      · intro op hop
        exact ⟨_, hiIns op hop⟩
    · intro d hd
      exact rwNot file hf hclass d (pdSub d hd)
  · intro hlook
    have hclass : classifyFile env true (runExisting projectId true store0) file =
        .addedC := by
      simp only [classifyFile, htext, if_true, hfs, if_neg hsize, hlook]
    exact ⟨hclass, rw5, by simp [classEq, hclass]⟩

/-- A concrete delta-run environment with one walked text file and an empty
prior store, exercising the added branch of the delta decision. -/
def c1env : IndexEnv :=
  ⟨.ok ["a.js"], fun _ => .ok ⟨0, "x"⟩, fun _ => .ok [1], fun _ => "h",
   .ok (), .ok ()⟩

theorem claim_C1_witness :
    c1env.glob = .ok ["a.js"] ∧ "a.js" ∈ ["a.js"] ∧ isTextFile "a.js" = true ∧
    c1env.fs "a.js" = .ok ⟨0, "x"⟩ ∧ ¬ 1024 * 1024 < ("x" : String).length ∧
    lookupMeta (runExisting "p" true []) "a.js" = none ∧
    classifyFile c1env true (runExisting "p" true []) "a.js" = .addedC ∧
    (runWalk c1env "d" "p" "ex" true [] ["a.js"]).added =
      (["a.js"] : List String).countP (classEq c1env true (runExisting "p" true [])
        .addedC) :=
  ⟨rfl, by simp, by decide, rfl, by decide, rfl,
   ((claim_C1 c1env "d" "p" "ex" [] ["a.js"] "a.js" ⟨0, "x"⟩ rfl (by simp) (by decide)
     rfl (by decide)).2.2 rfl).1,
   ((claim_C1 c1env "d" "p" "ex" [] ["a.js"] "a.js" ⟨0, "x"⟩ rfl (by simp) (by decide)
     rfl (by decide)).2.2 rfl).2.1⟩

/-- C2: in a delta run that completes, every path of the prior snapshot that
the walk did not visit is in the stale set, a purge of its
`(projectId, path)` chunks is issued, the returned deltaStats counts the
stale set in `deleted`, and the path is gone from `getProjectStats`'s file
list over the final store. -/
theorem claim_C2 (env : IndexEnv) (dirPath projectId excludesText : String)
    (store0 : List StoredDoc) (files : List String) (p : String)
    (hglob : env.glob = .ok files) (hins : env.insert = .ok ())
    (hup : env.upsert = .ok ())
    (hp : p ∈ (runExisting projectId true store0).map Prod.fst)
    (hnp : p ∉ files) :
    p ∈ runDeletedFiles env dirPath projectId excludesText true store0 files ∧
    StoreOp.removeChunks projectId p ∈
      (indexDirectory env dirPath projectId excludesText true store0).ops ∧
    (∃ r, (indexDirectory env dirPath projectId excludesText true store0).result =
        .ok r ∧
      ∃ ds, r.deltaStats = some ds ∧ ds.deleted =
        (runDeletedFiles env dirPath projectId excludesText true store0 files).length) ∧
    p ∉ getProjectFiles projectId
      (indexDirectory env dirPath projectId excludesText true store0).store := by
  obtain ⟨rw1, -, -, -, -, -, -, -, rwDocsP, -, -, -⟩ :=
    runWalk_spec env dirPath projectId excludesText true store0 files
  obtain ⟨pd1, -, -, -, -, ⟨delOps, hpdOps, hdelP, hdelC⟩, pdSub, pdNot, -⟩ :=
    postDeletion_spec env dirPath projectId excludesText true store0 files
  obtain ⟨insOps, hiOps, hiIns⟩ :=
    indexDirectory_ops env dirPath projectId excludesText true store0 files hglob
  have hpdel : p ∈ runDeletedFiles env dirPath projectId excludesText true store0 files := by
    unfold runDeletedFiles
    rw [if_pos rfl]
    refine List.mem_filter.mpr ⟨hp, ?_⟩
    rw [decide_eq_true_eq, rw1]
    intro hc
    exact hnp (by simpa using hc)
  refine ⟨hpdel, ?_, ?_, ?_⟩
  · rw [hiOps, hpdOps]
    exact List.mem_append.mpr (Or.inl (List.mem_append.mpr (Or.inr (hdelC p hpdel))))
  · exact ⟨_, indexDirectory_ok env dirPath projectId excludesText true store0 files
      hglob hins hup, _, rfl, rfl⟩
  · intro hmem
    have hmem2 := List.mem_dedup.mp hmem
    obtain ⟨d, hd, hdf⟩ := List.mem_map.mp hmem2
    obtain ⟨hdStore, hdProj⟩ := List.mem_filter.mp hd
    rcases indexDirectory_store_mem env dirPath projectId excludesText true store0 files
        hglob d hdStore with h | h
    · exact pdNot p hpdel d h ⟨by simpa using hdProj, hdf⟩
    · rw [pd1] at h
      obtain ⟨g, hg, hfp, -⟩ := rwDocsP d h
      rw [hdf] at hfp
      exact hnp (hfp ▸ hg)

/-- A store with a single chunk for a path that the (empty) walk never
visits. -/
def c2doc : StoredDoc :=
  ⟨"p", "old.js", 0, 1, "c", some (some [1]), ⟨1, ".js", 0, "h", 1, 1⟩⟩

def c2env : IndexEnv :=
  ⟨.ok [], fun _ => .error "no", fun _ => .ok [1], fun _ => "h", .ok (), .ok ()⟩

theorem claim_C2_witness :
    c2env.glob = .ok [] ∧ c2env.insert = .ok () ∧ c2env.upsert = .ok () ∧
    "old.js" ∈ (runExisting "p" true [c2doc]).map Prod.fst ∧
    "old.js" ∉ ([] : List String) ∧
    ("old.js" ∈ runDeletedFiles c2env "d" "p" "ex" true [c2doc] [] ∧
     StoreOp.removeChunks "p" "old.js" ∈
       (indexDirectory c2env "d" "p" "ex" true [c2doc]).ops ∧
     (∃ r, (indexDirectory c2env "d" "p" "ex" true [c2doc]).result = .ok r ∧
       ∃ ds, r.deltaStats = some ds ∧ ds.deleted =
         (runDeletedFiles c2env "d" "p" "ex" true [c2doc] []).length) ∧
     "old.js" ∉ getProjectFiles "p" (indexDirectory c2env "d" "p" "ex" true [c2doc]).store) :=
  ⟨rfl, rfl, rfl, by decide, by simp,
   claim_C2 c2env "d" "p" "ex" [c2doc] [] "old.js" rfl rfl rfl (by decide) (by simp)⟩

/-! ### Per-file error containment (C4) -/

theorem indexContent_error_event (env : IndexEnv) (projectId file content : String)
    (mtime : Int) (contentHash : String) (deltaOnly : Bool) (totalFiles : Nat)
    (st : WalkState) (e : String)
    (he : embedErr env (chunkContent content file) = some e) :
    JobEvent.log ("Error processing file " ++ file ++ ": " ++ e) "error" ∈
      (indexContent env projectId file content mtime contentHash deltaOnly totalFiles
        st).events := by
  obtain ⟨herr, -⟩ := embedChunks_spec env projectId file content.length mtime
    contentHash (chunkContent content file)
  simp only [indexContent]
  rw [herr, he]
  simp

theorem processFile_readError_event (env : IndexEnv) (projectId : String)
    (deltaOnly : Bool) (existing : List (String × FileMeta)) (totalFiles : Nat)
    (st : WalkState) (file e : String)
    (htext : isTextFile file = true) (hfs : env.fs file = .error e) :
    JobEvent.log ("Error processing file " ++ file ++ ": " ++ e) "error" ∈
      (processFile env projectId deltaOnly existing totalFiles st file).events := by
  simp only [processFile, if_pos htext, hfs]
  simp

theorem processFile_embedError_event (env : IndexEnv) (projectId : String)
    (deltaOnly : Bool) (existing : List (String × FileMeta)) (totalFiles : Nat)
    (st : WalkState) (file : String) (entry : FsEntry) (e : String)
    (htext : isTextFile file = true) (hfs : env.fs file = .ok entry)
    (hsize : ¬ 1024 * 1024 < entry.content.length)
    (hclass : classifyFile env deltaOnly existing file = .updatedC ∨
              classifyFile env deltaOnly existing file = .addedC ∨
              classifyFile env deltaOnly existing file = .full)
    (he : embedErr env (chunkContent entry.content file) = some e) :
    JobEvent.log ("Error processing file " ++ file ++ ": " ++ e) "error" ∈
      (processFile env projectId deltaOnly existing totalFiles st file).events := by
  simp only [processFile, if_pos htext, hfs]
  rw [if_neg hsize]
  cases deltaOnly with
  | false =>
    rw [if_neg (by decide)]
    exact indexContent_error_event env projectId file entry.content entry.mtime
      (env.hash entry.content) false totalFiles _ e he
  | true =>
    rw [if_pos rfl]
    cases hlook : lookupMeta existing file with
    | some ex =>
      dsimp only
      by_cases htriple : ex.contentHash = env.hash entry.content ∧
          ex.fileSize = entry.content.length ∧ entry.mtime ≤ ex.lastModified
      · exfalso
        have hunch : classifyFile env true existing file = .unchanged := by
          simp only [classifyFile, htext, if_true, hfs, if_neg hsize, hlook]
          rw [if_pos htriple]
        rw [hunch] at hclass
        rcases hclass with h | h | h <;> exact absurd h (by decide)
      · rw [if_neg htriple]
        exact indexContent_error_event env projectId file entry.content entry.mtime
          (env.hash entry.content) true totalFiles _ e he
    | none =>
      dsimp only
      exact indexContent_error_event env projectId file entry.content entry.mtime
        (env.hash entry.content) true totalFiles _ e he

/-- An event that `processFile` emits for a walked file (at every state) is
in the final walk events. -/
theorem walk_event_mem (env : IndexEnv) (projectId : String) (deltaOnly : Bool)
    (existing : List (String × FileMeta)) (totalFiles : Nat) (f : String)
    (ev : JobEvent)
    (hev : ∀ st : WalkState,
      ev ∈ (processFile env projectId deltaOnly existing totalFiles st f).events) :
    ∀ (files : List String) (st0 : WalkState), f ∈ files →
      ev ∈ (files.foldl (processFile env projectId deltaOnly existing totalFiles)
        st0).events := by
  intro files
  induction files with
  | nil =>
    intro st0 hf
    cases hf
  | cons g gs ih =>
    intro st0 hf
    rw [List.foldl_cons]
    rcases List.mem_cons.mp hf with heq | hf2
    · subst heq
      obtain ⟨tail, htail⟩ := (walk_spec env projectId deltaOnly existing totalFiles gs
        (processFile env projectId deltaOnly existing totalFiles st0 f)).2.2.2.2.2.2.2.2.2
      rw [htail]
      exact List.mem_append.mpr (Or.inl (hev st0))
    · exact ih (processFile env projectId deltaOnly existing totalFiles st0 g) hf2

/-- Walk-phase events survive into the final `indexDirectory` event list. -/
theorem indexDirectory_walkEvent (env : IndexEnv)
    (dirPath projectId excludesText : String) (deltaOnly : Bool)
    (store0 : List StoredDoc) (files : List String) (ev : JobEvent)
    (hglob : env.glob = .ok files)
    (hev : ev ∈ (runWalk env dirPath projectId excludesText deltaOnly store0
      files).events) :
    ev ∈ (indexDirectory env dirPath projectId excludesText deltaOnly store0).events := by
  obtain ⟨-, -, -, -, -, -, -, -, ⟨t1, h1⟩⟩ :=
    postDeletion_spec env dirPath projectId excludesText deltaOnly store0 files
  obtain ⟨t2, h2⟩ :=
    indexDirectory_events_ext env dirPath projectId excludesText deltaOnly store0
      files hglob
  rw [h2, h1]
  exact List.mem_append.mpr (Or.inl (List.mem_append.mpr (Or.inl hev)))

/-- Every terminal-suffix state of a failed `runIndexJob` carries the error
message recorded by the failure `updateJob`. -/
theorem runTail_error_field (t : Int) (j2 : Job) (e : String) :
    ∀ x ∈ runTail t j2 (.error e), x.error = some e := by
  have hupd : (updateJob t j2
      { status := some "failed", progress := some 0, error := some e }).error =
      some e := by
    unfold updateJob applyUpdates
    rw [if_pos (Or.inr rfl)]
  intro x hx
  simp only [runTail, List.mem_cons, List.not_mem_nil, or_false] at hx
  rcases hx with rfl | rfl
  · exact hupd
  · exact hupd

/-- The last trace state of `runIndexJob` belongs to the terminal suffix. -/
theorem runIndexJob_last_mem (t : Int) (job : Job) (events : List JobEvent)
    (outcome : Except String IndexResult) :
    ∀ jf, (runIndexJob t job events outcome).1.getLast? = some jf →
      jf ∈ runTail t (events.foldl (applyEvent t)
        (updateJob t job { status := some "running" })) outcome := by
  intro jf hlast
  rw [runIndexJob_trace,
      List.getLast?_append_of_ne_nil _ (runTail_ne_nil t _ outcome)] at hlast
  obtain ⟨h, rfl⟩ := List.mem_getLast?_eq_getLast (Option.mem_def.mpr hlast)
  exact List.getLast_mem h

/-- C4: a read error or an embedding error on one file is logged as an
error event of the run, the file does not count as processed, the walk still
visits every globbed file, and with working enumeration/insert/upsert
collaborators the run returns a result; an enumeration error, a bulk-insert
error (with documents pending) or a metadata-upsert error makes the run
throw that error, and a caller of `runIndexJob` on a failed run has the
error re-thrown while the job ends `failed` with the message recorded and
`endTime` set. -/
theorem claim_C4 (env : IndexEnv) (dirPath projectId excludesText : String)
    (deltaOnly : Bool) (store0 : List StoredDoc) (t : Int) (job : Job)
    (events : List JobEvent) :
    (∀ files, env.glob = .ok files →
      (∀ f ∈ files, ∀ e, isTextFile f = true → env.fs f = .error e →
        JobEvent.log ("Error processing file " ++ f ++ ": " ++ e) "error" ∈
          (indexDirectory env dirPath projectId excludesText deltaOnly store0).events ∧
        fileSucceeds env deltaOnly (runExisting projectId deltaOnly store0) f =
          false) ∧
      (∀ f ∈ files, ∀ entry e, isTextFile f = true → env.fs f = .ok entry →
        ¬ 1024 * 1024 < entry.content.length →
        (classifyFile env deltaOnly (runExisting projectId deltaOnly store0) f =
            .updatedC ∨
         classifyFile env deltaOnly (runExisting projectId deltaOnly store0) f =
            .addedC ∨
         classifyFile env deltaOnly (runExisting projectId deltaOnly store0) f =
            .full) →
        embedErr env (chunkContent entry.content f) = some e →
        JobEvent.log ("Error processing file " ++ f ++ ": " ++ e) "error" ∈
          (indexDirectory env dirPath projectId excludesText deltaOnly store0).events ∧
        fileSucceeds env deltaOnly (runExisting projectId deltaOnly store0) f =
          false) ∧
      (runWalk env dirPath projectId excludesText deltaOnly store0 files).currentFiles =
        files ∧
      (runWalk env dirPath projectId excludesText deltaOnly store0 files).processed =
        files.countP (fileSucceeds env deltaOnly (runExisting projectId deltaOnly
          store0)) ∧
      (env.insert = .ok () → env.upsert = .ok () →
        ∃ r, (indexDirectory env dirPath projectId excludesText deltaOnly
          store0).result = .ok r)) ∧
    (∀ e, env.glob = .error e →
      (indexDirectory env dirPath projectId excludesText deltaOnly store0).result =
        .error e) ∧
    (∀ files e, env.glob = .ok files → env.insert = .error e →
      0 < (postDeletion env dirPath projectId excludesText deltaOnly store0
        files).documents.length →
      (indexDirectory env dirPath projectId excludesText deltaOnly store0).result =
        .error e) ∧
    (∀ files e, env.glob = .ok files → env.upsert = .error e → env.insert = .ok () →
      (indexDirectory env dirPath projectId excludesText deltaOnly store0).result =
        .error e) ∧
    (∀ e, (indexDirectory env dirPath projectId excludesText deltaOnly store0).result =
        .error e →
      (runIndexJob t job events (indexDirectory env dirPath projectId excludesText
        deltaOnly store0).result).2 = .error e ∧
      ∀ jf, (runIndexJob t job events (indexDirectory env dirPath projectId
          excludesText deltaOnly store0).result).1.getLast? = some jf →
        jf.status = "failed" ∧ jf.error = some e ∧ jf.endTime = some t) := by
  refine ⟨?_, ?_, ?_, ?_, ?_⟩
  · intro files hglob
    refine ⟨?_, ?_, (runWalk_spec env dirPath projectId excludesText deltaOnly store0
        files).1,
      (runWalk_spec env dirPath projectId excludesText deltaOnly store0
        files).2.2.2.2.2.1, ?_⟩
    · intro f hf e htext hfs
      refine ⟨?_, by simp [fileSucceeds, hfs]⟩
      refine indexDirectory_walkEvent env dirPath projectId excludesText deltaOnly
        store0 files _ hglob ?_
      unfold runWalk
      exact walk_event_mem env projectId deltaOnly
        (runExisting projectId deltaOnly store0) ((files.filter isTextFile).length) f _
        (fun st => processFile_readError_event env projectId deltaOnly
          (runExisting projectId deltaOnly store0) ((files.filter isTextFile).length)
          st f e htext hfs)
        files _ hf
    · intro f hf entry e htext hfs hsize hclass he
      refine ⟨?_, by simp [fileSucceeds, hfs, he]⟩
      refine indexDirectory_walkEvent env dirPath projectId excludesText deltaOnly
        store0 files _ hglob ?_
      unfold runWalk
      exact walk_event_mem env projectId deltaOnly
        (runExisting projectId deltaOnly store0) ((files.filter isTextFile).length) f _
        (fun st => processFile_embedError_event env projectId deltaOnly
          (runExisting projectId deltaOnly store0) ((files.filter isTextFile).length)
          st f entry e htext hfs hsize hclass he)
        files _ hf
    · intro hins hup
      exact ⟨_, indexDirectory_ok env dirPath projectId excludesText deltaOnly store0
        files hglob hins hup⟩
  · intro e hglob
    exact (indexDirectory_glob_error env dirPath projectId excludesText deltaOnly
      store0 e hglob).1
  · intro files e hglob hins hdocs
    exact (indexDirectory_insert_error env dirPath projectId excludesText deltaOnly
      store0 files e hglob hdocs hins).1
  · intro files e hglob hup hins
    exact indexDirectory_upsert_error env dirPath projectId excludesText deltaOnly
      store0 files e hglob hup (Or.inl hins)
  · intro e hres
    refine ⟨by rw [runIndexJob_ret, hres], ?_⟩
    intro jf hlast
    rw [hres] at hlast
    obtain ⟨h1, h2, -⟩ := runIndexJob_last t job events (.error e) jf hlast
    have hmem := runIndexJob_last_mem t job events (.error e) jf hlast
    exact ⟨h1, runTail_error_field t _ e jf hmem, h2⟩

/-- An environment whose only globbed file fails to read, with working
store collaborators. -/
def c4env : IndexEnv :=
  ⟨.ok ["a.js"], fun _ => .error "boom", fun _ => .ok [1], fun _ => "h",
   .ok (), .ok ()⟩

theorem claim_C4_witness :
    c4env.glob = .ok ["a.js"] ∧ "a.js" ∈ ["a.js"] ∧ isTextFile "a.js" = true ∧
    c4env.fs "a.js" = .error "boom" ∧
    (JobEvent.log ("Error processing file " ++ "a.js" ++ ": " ++ "boom") "error" ∈
      (indexDirectory c4env "d" "p" "ex" false []).events ∧
     fileSucceeds c4env false (runExisting "p" false []) "a.js" = false) :=
  ⟨rfl, by simp, by decide, rfl,
   ((claim_C4 c4env "d" "p" "ex" false [] 0 (createJob 0 1 "index" "p" "") []).1
     ["a.js"] rfl).1 "a.js" (by simp) "boom" (by decide) rfl⟩

/-! ### Progress monotonicity (C6) -/

/-- The progress percentages reported by a sequence of job events, in
order. -/
def progVals (evs : List JobEvent) : List ℚ :=
  evs.filterMap fun ev =>
    match ev with
    | .progress p _ => some p
    | .log _ _ => none

theorem startProg_le_perFileProgress (d : Bool) (k total : Nat) :
    (if d then (20:ℚ) else 15) ≤ perFileProgress d k total := by
  have hdiv : (0:ℚ) ≤ (k:ℚ) / (total:ℚ) := by positivity
  unfold perFileProgress
  cases d with
  | true =>
    norm_num
    nlinarith [hdiv]
  | false =>
    norm_num
    nlinarith [hdiv]

theorem perFileProgress_mono (d : Bool) (k k' total : Nat) (h : k ≤ k') :
    perFileProgress d k total ≤ perFileProgress d k' total := by
  have hdiv : (k:ℚ) / (total:ℚ) ≤ (k':ℚ) / (total:ℚ) := by
    rcases Nat.eq_zero_or_pos total with h0 | hpos
    · subst h0
      simp
    · have hc : (0:ℚ) < (total:ℚ) := by exact_mod_cast hpos
      exact (div_le_div_iff_of_pos_right hc).mpr (by exact_mod_cast h)
  unfold perFileProgress
  cases d with
  | true =>
    norm_num
    nlinarith [hdiv]
  | false =>
    norm_num
    nlinarith [hdiv]

theorem perFileProgress_le_85 (d : Bool) (k total : Nat) (h : k ≤ total) :
    perFileProgress d k total ≤ 85 := by
  have hdiv : (k:ℚ) / (total:ℚ) ≤ 1 := by
    rcases Nat.eq_zero_or_pos total with h0 | hpos
    · subst h0
      have hk : k = 0 := Nat.le_zero.mp h
      subst hk
      simp
    · have hc : (0:ℚ) < (total:ℚ) := by exact_mod_cast hpos
      rw [div_le_one hc]
      exact_mod_cast h
  unfold perFileProgress
  cases d with
  | true =>
    norm_num
    nlinarith [hdiv]
  | false =>
    norm_num
    nlinarith [hdiv]

theorem perFileProgress_nonneg (d : Bool) (k total : Nat) :
    0 ≤ perFileProgress d k total := by
  refine le_trans ?_ (startProg_le_perFileProgress d k total)
  cases d with
  | true => norm_num
  | false => norm_num

theorem indexContent_prog (env : IndexEnv) (projectId file content : String)
    (mtime : Int) (contentHash : String) (deltaOnly : Bool) (totalFiles : Nat)
    (st : WalkState) :
    progVals (indexContent env projectId file content mtime contentHash deltaOnly
        totalFiles st).events =
      progVals st.events ++
        (if (embedErr env (chunkContent content file)).isNone then
          [perFileProgress deltaOnly st.fileIndex totalFiles] else []) := by
  obtain ⟨herr, -⟩ := embedChunks_spec env projectId file content.length mtime
    contentHash (chunkContent content file)
  simp only [indexContent]
  rw [herr]
  cases hE : embedErr env (chunkContent content file) with
  | some e =>
    dsimp only
    rw [if_neg (by simp)]
    rw [show (({ st with documents := st.documents ++ (embedChunks env projectId file
        content.length mtime contentHash (chunkContent content file)).1 } :
        WalkState).events) = st.events from rfl]
    rw [progVals, progVals, List.filterMap_append]
    simp
  | none =>
    by_cases hmod : (st.processed + 1) % 10 = 0
    · rw [if_pos hmod, if_pos (by simp)]
      dsimp only
      rw [progVals, progVals, List.filterMap_append, List.filterMap_append]
      simp
    · rw [if_neg hmod, if_pos (by simp)]
      dsimp only
      rw [progVals, progVals, List.filterMap_append]
      simp

theorem processFile_prog (env : IndexEnv) (projectId : String) (deltaOnly : Bool)
    (existing : List (String × FileMeta)) (totalFiles : Nat) (st : WalkState)
    (file : String) :
    progVals (processFile env projectId deltaOnly existing totalFiles st file).events =
      progVals st.events ++
        (if fileSucceeds env deltaOnly existing file = true then
          [perFileProgress deltaOnly (st.fileIndex + 1) totalFiles] else []) := by
  by_cases htext : isTextFile file = true
  · simp only [processFile, if_pos htext]
    cases hfs : env.fs file with
    | error e =>
      dsimp only
      have hsucc : fileSucceeds env deltaOnly existing file = false := by
        simp [fileSucceeds, hfs]
      rw [if_neg (by simp [hsucc]), progVals, progVals, List.filterMap_append]
      simp
    | ok entry =>
      dsimp only
      by_cases hsize : 1024 * 1024 < entry.content.length
      · rw [if_pos hsize]
        have hclass : classifyFile env deltaOnly existing file = .tooLarge := by
          simp [classifyFile, htext, hfs, hsize]
        have hsucc : fileSucceeds env deltaOnly existing file = false := by
          simp [fileSucceeds, hfs, hclass]
        rw [if_neg (by simp [hsucc]), progVals, progVals, List.filterMap_append]
        simp
      · rw [if_neg hsize]
        cases deltaOnly with
        | true =>
          rw [if_pos rfl]
          cases hlook : lookupMeta existing file with
          | some ex =>
            dsimp only
            by_cases htriple : ex.contentHash = env.hash entry.content ∧
                ex.fileSize = entry.content.length ∧ entry.mtime ≤ ex.lastModified
            · rw [if_pos htriple]
              have hclass : classifyFile env true existing file = .unchanged := by
                simp only [classifyFile, htext, if_true, hfs, if_neg hsize, hlook]
                rw [if_pos htriple]
              have hsucc : fileSucceeds env true existing file = false := by
                simp [fileSucceeds, hfs, hclass]
              rw [if_neg (by simp [hsucc])]
              simp
            · rw [if_neg htriple]
              have hclass : classifyFile env true existing file = .updatedC := by
                simp only [classifyFile, htext, if_true, hfs, if_neg hsize, hlook]
                rw [if_neg htriple]
              have hsucc : fileSucceeds env true existing file =
                  (embedErr env (chunkContent entry.content file)).isNone := by
                simp [fileSucceeds, hfs, hclass]
              rw [indexContent_prog env projectId file entry.content entry.mtime
                (env.hash entry.content) true totalFiles
                { st with updated := st.updated + 1,
                          fileIndex := st.fileIndex + 1,
                          currentFiles := st.currentFiles ++ [file],
                          store := removeFileChunks projectId file st.store,
                          ops := st.ops ++ [StoreOp.removeChunks projectId file] }]
              rw [hsucc]
          | none =>
            dsimp only
            have hclass : classifyFile env true existing file = .addedC := by
              simp only [classifyFile, htext, if_true, hfs, if_neg hsize, hlook]
            have hsucc : fileSucceeds env true existing file =
                (embedErr env (chunkContent entry.content file)).isNone := by
              simp [fileSucceeds, hfs, hclass]
            rw [indexContent_prog env projectId file entry.content entry.mtime
              (env.hash entry.content) true totalFiles
              { st with added := st.added + 1,
                        fileIndex := st.fileIndex + 1,
                        currentFiles := st.currentFiles ++ [file] }]
            rw [hsucc]
        | false =>
          rw [if_neg (by decide)]
          have hclass : classifyFile env false existing file = .full := by
            simp [classifyFile, htext, hfs, hsize]
          have hsucc : fileSucceeds env false existing file =
              (embedErr env (chunkContent entry.content file)).isNone := by
            simp [fileSucceeds, hfs, hclass]
          rw [indexContent_prog env projectId file entry.content entry.mtime
            (env.hash entry.content) false totalFiles
            { st with fileIndex := st.fileIndex + 1,
                      currentFiles := st.currentFiles ++ [file] }]
          rw [hsucc]
  · have hclass : classifyFile env deltaOnly existing file = .nonText := by
      simp [classifyFile, htext]
    have hsucc : fileSucceeds env deltaOnly existing file = false := by
      cases hfs : env.fs file with
      | error e => simp [fileSucceeds, hfs]
      | ok entry => simp [fileSucceeds, hfs, hclass]
    simp only [processFile, if_neg htext]
    rw [if_neg (by simp [hsucc])]
    simp

theorem chain_head_mono {a b : ℚ} {l : List ℚ} (hab : a ≤ b)
    (h : List.Chain' (· ≤ ·) (b :: l)) : List.Chain' (· ≤ ·) (a :: l) := by
  rw [List.chain'_cons'] at h ⊢
  exact ⟨fun x hx => le_trans hab (h.1 x hx), h.2⟩

theorem fileSucceeds_isTextFile (env : IndexEnv) (deltaOnly : Bool)
    (existing : List (String × FileMeta)) (f : String)
    (h : fileSucceeds env deltaOnly existing f = true) : isTextFile f = true := by
  by_contra htext
  have hclass : classifyFile env deltaOnly existing f = .nonText := by
    simp [classifyFile, htext]
  cases hfs : env.fs f with
  | error e => simp [fileSucceeds, hfs] at h
  | ok entry => simp [fileSucceeds, hfs, hclass] at h

theorem walk_prog (env : IndexEnv) (projectId : String) (deltaOnly : Bool)
    (existing : List (String × FileMeta)) (totalFiles : Nat) :
    ∀ (files : List String) (st0 : WalkState),
      st0.fileIndex + files.countP isTextFile ≤ totalFiles →
      ∃ vals,
        progVals ((files.foldl (processFile env projectId deltaOnly existing
          totalFiles) st0).events) = progVals st0.events ++ vals ∧
        List.Chain' (· ≤ ·)
          (perFileProgress deltaOnly st0.fileIndex totalFiles :: vals) ∧
        (∀ v ∈ vals, v ≤ perFileProgress deltaOnly
          (files.foldl (processFile env projectId deltaOnly existing totalFiles)
            st0).fileIndex totalFiles) ∧
        (∀ v ∈ vals, 0 ≤ v) := by
  intro files
  induction files with
  | nil =>
    intro st0 hb
    exact ⟨[], by simp, by simp, by simp, by simp⟩
  | cons f fs ih =>
    intro st0 hb
    rw [List.foldl_cons]
    have hpp := processFile_prog env projectId deltaOnly existing totalFiles st0 f
    have hfi : (processFile env projectId deltaOnly existing totalFiles st0
        f).fileIndex = st0.fileIndex + (if isTextFile f then 1 else 0) :=
      (processFile_spec env projectId deltaOnly existing totalFiles st0 f).2.1
    have hb1 : (processFile env projectId deltaOnly existing totalFiles st0
        f).fileIndex + fs.countP isTextFile ≤ totalFiles := by
      rw [hfi]
      rw [List.countP_cons] at hb
      by_cases htext : isTextFile f = true
      · simp only [htext, if_pos] at hb ⊢
        omega
      · simp only [htext] at hb ⊢
        simp at hb ⊢
        omega
    obtain ⟨vals, hv1, hv2, hv3, hv4⟩ :=
      ih (processFile env projectId deltaOnly existing totalFiles st0 f) hb1
    have hfinal : (fs.foldl (processFile env projectId deltaOnly existing totalFiles)
        (processFile env projectId deltaOnly existing totalFiles st0 f)).fileIndex =
        (processFile env projectId deltaOnly existing totalFiles st0 f).fileIndex +
          fs.countP isTextFile :=
      (walk_spec env projectId deltaOnly existing totalFiles fs _).2.1
    by_cases hsucc : fileSucceeds env deltaOnly existing f = true
    · have htext : isTextFile f = true :=
        fileSucceeds_isTextFile env deltaOnly existing f hsucc
      have hfi1 : (processFile env projectId deltaOnly existing totalFiles st0
          f).fileIndex = st0.fileIndex + 1 := by
        rw [hfi, if_pos htext]
      refine ⟨perFileProgress deltaOnly (st0.fileIndex + 1) totalFiles :: vals,
        ?_, ?_, ?_, ?_⟩
      · rw [hv1, hpp, if_pos hsucc, List.append_assoc]
        rfl
      · rw [List.chain'_cons]
        refine ⟨perFileProgress_mono deltaOnly _ _ totalFiles (Nat.le_succ _), ?_⟩
        rw [hfi1] at hv2
        exact hv2
      · intro v hv
        rcases List.mem_cons.mp hv with rfl | hv
        · refine perFileProgress_mono deltaOnly _ _ totalFiles ?_
          rw [hfinal, hfi1]
          omega
        · exact hv3 v hv
      · intro v hv
        rcases List.mem_cons.mp hv with rfl | hv
        · exact perFileProgress_nonneg deltaOnly _ totalFiles
        · exact hv4 v hv
    · refine ⟨vals, ?_, ?_, hv3, hv4⟩
      · rw [hv1, hpp, if_neg hsucc, List.append_nil]
      · refine chain_head_mono ?_ hv2
        refine perFileProgress_mono deltaOnly _ _ totalFiles ?_
        rw [hfi]
        by_cases htext : isTextFile f = true <;> simp [htext]

theorem perFileProgress_zero (d : Bool) (total : Nat) :
    perFileProgress d 0 total = (if d then (20:ℚ) else 15) := by
  unfold perFileProgress
  simp

theorem initialEvents_prog (dirPath projectId excludesText : String)
    (deltaOnly : Bool) (store0 : List StoredDoc) (files : List String) :
    progVals (initialEvents dirPath projectId excludesText deltaOnly store0 files) =
      [5, 10] ++ (if deltaOnly then [(15:ℚ)] else []) := by
  cases deltaOnly <;> rfl

/-- The walk-phase progress values: an initial `[5, 10(, 15)]` ramp followed
by the per-file values, all chained, nonnegative and at most 85. -/
theorem runWalk_prog (env : IndexEnv) (dirPath projectId excludesText : String)
    (deltaOnly : Bool) (store0 : List StoredDoc) (files : List String) :
    List.Chain' (· ≤ ·)
      (progVals (runWalk env dirPath projectId excludesText deltaOnly store0
        files).events) ∧
    (∀ v ∈ progVals (runWalk env dirPath projectId excludesText deltaOnly store0
        files).events, 0 ≤ v ∧ v ≤ 85) := by
  obtain ⟨vals, h1, h2, h3, h4⟩ := walk_prog env projectId deltaOnly
    (runExisting projectId deltaOnly store0) ((files.filter isTextFile).length) files
    ⟨[], 0, 0, 0, 0, 0, [], store0, [],
      initialEvents dirPath projectId excludesText deltaOnly store0 files⟩
    (by simp [List.countP_eq_length_filter])
  have hfi : (files.foldl (processFile env projectId deltaOnly
      (runExisting projectId deltaOnly store0) ((files.filter isTextFile).length))
      ⟨[], 0, 0, 0, 0, 0, [], store0, [],
        initialEvents dirPath projectId excludesText deltaOnly store0 files⟩).fileIndex =
      (files.filter isTextFile).length := by
    have := (walk_spec env projectId deltaOnly
      (runExisting projectId deltaOnly store0) ((files.filter isTextFile).length) files
      ⟨[], 0, 0, 0, 0, 0, [], store0, [],
        initialEvents dirPath projectId excludesText deltaOnly store0 files⟩).2.1
    rw [this]
    simp [List.countP_eq_length_filter]
  have h85 : ∀ v ∈ vals, v ≤ 85 := by
    intro v hv
    refine le_trans (h3 v hv) ?_
    rw [hfi]
    exact perFileProgress_le_85 deltaOnly _ _ le_rfl
  have hWev : progVals (runWalk env dirPath projectId excludesText deltaOnly store0
      files).events = ([5, 10] ++ (if deltaOnly then [(15:ℚ)] else [])) ++ vals := by
    unfold runWalk
    rw [h1]
    dsimp only
    rw [initialEvents_prog]
  rw [hWev]
  have hchainS : List.Chain' (· ≤ ·)
      ((if deltaOnly then (20:ℚ) else 15) :: vals) := by
    rw [← perFileProgress_zero deltaOnly ((files.filter isTextFile).length)]
    exact h2
  constructor
  · cases deltaOnly with
    | true =>
      rw [if_pos rfl]
      show List.Chain' (· ≤ ·) ((5:ℚ) :: 10 :: 15 :: vals)
      rw [List.chain'_cons]
      refine ⟨by norm_num, ?_⟩
      rw [List.chain'_cons]
      refine ⟨by norm_num, ?_⟩
      have hchainS20 : List.Chain' (· ≤ ·) ((20:ℚ) :: vals) := by
        rw [if_pos rfl] at hchainS
        exact hchainS
      exact chain_head_mono (by norm_num) hchainS20
    | false =>
      rw [if_neg (by decide)]
      show List.Chain' (· ≤ ·) ((5:ℚ) :: 10 :: vals)
      rw [List.chain'_cons]
      refine ⟨by norm_num, ?_⟩
      have hchainS15 : List.Chain' (· ≤ ·) ((15:ℚ) :: vals) := by
        rw [if_neg (by decide)] at hchainS
        exact hchainS
      exact chain_head_mono (by norm_num) hchainS15
  · intro v hv
    rcases List.mem_append.mp hv with hv | hv
    · rcases List.mem_append.mp hv with hv | hv
      · rcases List.mem_cons.mp hv with rfl | hv
        · norm_num
        · rcases List.mem_cons.mp hv with rfl | hv
          · norm_num
          · simp at hv
      · cases deltaOnly with
        | true =>
          rw [if_pos rfl] at hv
          rcases List.mem_cons.mp hv with rfl | hv
          · norm_num
          · simp at hv
        | false =>
          rw [if_neg (by decide)] at hv
          simp at hv
    · exact ⟨h4 v hv, h85 v hv⟩

theorem postDeletion_prog (env : IndexEnv) (dirPath projectId excludesText : String)
    (deltaOnly : Bool) (store0 : List StoredDoc) (files : List String) :
    progVals (postDeletion env dirPath projectId excludesText deltaOnly store0
        files).events =
      progVals (runWalk env dirPath projectId excludesText deltaOnly store0
        files).events ++ (if deltaOnly then [(87:ℚ)] else []) := by
  unfold postDeletion
  cases deltaOnly with
  | false => simp
  | true =>
    rw [if_pos rfl, if_pos rfl]
    obtain ⟨-, -, -, -, -, -, d7, -, -, -⟩ := deletionFold_spec projectId
      (runDeletedFiles env dirPath projectId excludesText true store0 files)
      (walkWith87 env dirPath projectId excludesText true store0 files)
    by_cases hdel : 0 < (runDeletedFiles env dirPath projectId excludesText true store0
        files).length
    · rw [if_pos hdel]
      show progVals ((deletionFold projectId
        (runDeletedFiles env dirPath projectId excludesText true store0 files)
        (walkWith87 env dirPath projectId excludesText true store0 files)).events ++
          [JobEvent.log ("Removed " ++ toString (runDeletedFiles env dirPath projectId
            excludesText true store0 files).length ++
            " deleted files from index") "info"]) = _
      rw [d7]
      show progVals ((runWalk env dirPath projectId excludesText true store0
        files).events ++ [JobEvent.progress 87 (some "Checking for deleted files...")] ++
        [JobEvent.log ("Removed " ++ toString (runDeletedFiles env dirPath projectId
          excludesText true store0 files).length ++
          " deleted files from index") "info"]) = _
      rw [progVals, List.filterMap_append, List.filterMap_append]
      simp [progVals]
    · rw [if_neg hdel, d7]
      show progVals ((runWalk env dirPath projectId excludesText true store0
        files).events ++ [JobEvent.progress 87 (some "Checking for deleted files...")]) = _
      rw [progVals, List.filterMap_append]
      simp [progVals]

theorem finishRun_prog (env : IndexEnv) (deltaOnly : Bool)
    (totalFiles deletedCount : Nat) (st : WalkState) :
    progVals (finishRun env deltaOnly totalFiles deletedCount st).events =
      progVals st.events ++
        (match env.upsert with
         | .error _ => [(95:ℚ)]
         | .ok _ => [95, 100]) := by
  unfold finishRun
  cases hup : env.upsert with
  | error e =>
    dsimp only
    rw [progVals, List.filterMap_append, List.filterMap_append]
    simp [progVals]
  | ok u =>
    cases u
    dsimp only
    cases deltaOnly with
    | true =>
      rw [if_pos rfl]
      dsimp only
      rw [progVals, List.filterMap_append, List.filterMap_append,
        List.filterMap_append, List.append_assoc, List.append_assoc]
      simp [progVals]
    | false =>
      rw [if_neg (by decide)]
      dsimp only
      rw [progVals, List.filterMap_append, List.filterMap_append, List.append_assoc]
      simp [progVals]

theorem progVals_app_log (a : List JobEvent) (m lv : String) :
    progVals (a ++ [JobEvent.log m lv]) = progVals a := by
  rw [progVals, progVals, List.filterMap_append]
  simp

theorem progVals_app_prog (a : List JobEvent) (p : ℚ) (msg : Option String) :
    progVals (a ++ [JobEvent.progress p msg]) = progVals a ++ [p] := by
  rw [progVals, progVals, List.filterMap_append]
  simp

theorem chain'_append_le (l T : List ℚ) (c : ℚ) (hl : List.Chain' (· ≤ ·) l)
    (hb : ∀ v ∈ l, v ≤ c) (hT : List.Chain' (· ≤ ·) T) (hTb : ∀ v ∈ T, c ≤ v) :
    List.Chain' (· ≤ ·) (l ++ T) := by
  rw [List.chain'_append]
  refine ⟨hl, hT, ?_⟩
  intro x hx y hy
  have hxl : x ∈ l := by
    obtain ⟨h, rfl⟩ := List.mem_getLast?_eq_getLast hx
    exact List.getLast_mem h
  have hyT : y ∈ T := List.mem_of_mem_head? hy
  exact le_trans (hb x hxl) (hTb y hyT)

theorem prog_assemble (l T : List ℚ) (hl : List.Chain' (· ≤ ·) l)
    (hb : ∀ v ∈ l, 0 ≤ v ∧ v ≤ 87)
    (hT : List.Chain' (· ≤ ·) T) (hTb : ∀ v ∈ T, 87 ≤ v ∧ v ≤ 100) :
    List.Chain' (· ≤ ·) (l ++ T) ∧ (∀ v ∈ l ++ T, 0 ≤ v ∧ v ≤ 100) := by
  constructor
  · exact chain'_append_le l T 87 hl (fun v hv => (hb v hv).2) hT
      (fun v hv => (hTb v hv).1)
  · intro v hv
    rcases List.mem_append.mp hv with hv | hv
    · exact ⟨(hb v hv).1, le_trans (hb v hv).2 (by norm_num)⟩
    · exact ⟨le_trans (by norm_num) (hTb v hv).1, (hTb v hv).2⟩

/-- The progress values of one `indexDirectory` run: chained non-decreasing,
within `[0, 100]`, and ending at `100` exactly when the run returns a
result. -/
theorem indexDirectory_prog (env : IndexEnv) (dirPath projectId excludesText : String)
    (deltaOnly : Bool) (store0 : List StoredDoc) :
    List.Chain' (· ≤ ·)
      (progVals (indexDirectory env dirPath projectId excludesText deltaOnly
        store0).events) ∧
    (∀ v ∈ progVals (indexDirectory env dirPath projectId excludesText deltaOnly
        store0).events, 0 ≤ v ∧ v ≤ 100) ∧
    (∀ r, (indexDirectory env dirPath projectId excludesText deltaOnly store0).result =
        .ok r →
      (progVals (indexDirectory env dirPath projectId excludesText deltaOnly
        store0).events).getLast? = some 100) := by
  cases hglob : env.glob with
  | error e =>
    simp only [indexDirectory, hglob]
    refine ⟨?_, ?_, ?_⟩
    · rw [progVals_app_log]
      simp [progVals]
    · rw [progVals_app_log]
      intro v hv
      simp [progVals] at hv
      rw [hv]
      norm_num
    · intro r hr
      exact absurd hr (by simp)
  | ok files =>
    obtain ⟨hWchain, hWb⟩ :=
      runWalk_prog env dirPath projectId excludesText deltaOnly store0 files
    have hPeq := postDeletion_prog env dirPath projectId excludesText deltaOnly
      store0 files
    have hPchain : List.Chain' (· ≤ ·)
        (progVals (postDeletion env dirPath projectId excludesText deltaOnly store0
          files).events) := by
      rw [hPeq]
      refine chain'_append_le _ _ 85 hWchain (fun v hv => (hWb v hv).2) ?_ ?_
      · cases deltaOnly <;> simp
      · intro v hv
        cases deltaOnly with
        | true =>
          rw [if_pos rfl] at hv
          rcases List.mem_cons.mp hv with rfl | hv
          · norm_num
          · simp at hv
        | false =>
          rw [if_neg (by decide)] at hv
          simp at hv
    have hPb : ∀ v ∈ progVals (postDeletion env dirPath projectId excludesText
        deltaOnly store0 files).events, 0 ≤ v ∧ v ≤ 87 := by
      rw [hPeq]
      intro v hv
      rcases List.mem_append.mp hv with hv | hv
      · exact ⟨(hWb v hv).1, le_trans (hWb v hv).2 (by norm_num)⟩
      · cases deltaOnly with
        | true =>
          rw [if_pos rfl] at hv
          rcases List.mem_cons.mp hv with rfl | hv
          · norm_num
          · simp at hv
        | false =>
          rw [if_neg (by decide)] at hv
          simp at hv
    simp only [indexDirectory, hglob]
    by_cases hdocs : 0 < (postDeletion env dirPath projectId excludesText deltaOnly
        store0 files).documents.length
    · rw [if_pos hdocs]
      cases hins : env.insert with
      | error e =>
        dsimp only
        rw [progVals_app_log, progVals_app_prog]
        obtain ⟨hc, hb⟩ := prog_assemble _ [(90:ℚ)] hPchain hPb (by simp)
          (by intro v hv; simp at hv; rw [hv]; norm_num)
        refine ⟨hc, hb, ?_⟩
        intro r hr
        exact absurd hr (by simp)
      | ok u =>
        cases u
        rw [finishRun_prog]
        dsimp only
        rw [progVals_app_log, progVals_app_prog]
        cases hup : env.upsert with
        | error e2 =>
          obtain ⟨hc, hb⟩ := prog_assemble _ ([(90:ℚ)] ++ [95]) hPchain hPb
            (by norm_num) (by intro v hv; simp at hv; rcases hv with rfl | rfl <;> norm_num)
          rw [← List.append_assoc] at hc hb
          refine ⟨hc, hb, ?_⟩
          intro r hr
          rw [(finishRun_error env deltaOnly _ _ _ e2 hup).1] at hr
          exact absurd hr (by simp)
        | ok u2 =>
          cases u2
          obtain ⟨hc, hb⟩ := prog_assemble _ ([(90:ℚ)] ++ [95, 100]) hPchain hPb
            (by norm_num) (by intro v hv; simp at hv; rcases hv with rfl | rfl | rfl <;> norm_num)
          rw [← List.append_assoc] at hc hb
          refine ⟨hc, hb, ?_⟩
          intro r hr
          rw [List.append_assoc, List.getLast?_append_of_ne_nil _ (by simp)]
          rfl
    · rw [if_neg hdocs]
      rw [finishRun_prog]
      cases hup : env.upsert with
      | error e2 =>
        obtain ⟨hc, hb⟩ := prog_assemble _ [(95:ℚ)] hPchain hPb (by simp)
          (by intro v hv; simp at hv; rw [hv]; norm_num)
        refine ⟨hc, hb, ?_⟩
        intro r hr
        rw [(finishRun_error env deltaOnly _ _ _ e2 hup).1] at hr
        exact absurd hr (by simp)
      | ok u =>
        cases u
        obtain ⟨hc, hb⟩ := prog_assemble _ [(95:ℚ), 100] hPchain hPb
          (by norm_num) (by intro v hv; simp at hv; rcases hv with rfl | rfl <;> norm_num)
        refine ⟨hc, hb, ?_⟩
        intro r hr
        rw [List.getLast?_append_of_ne_nil _ (by simp)]
        rfl

theorem applyEvent_progress (t : Int) (j : Job) (p : ℚ) (msg : Option String) :
    (applyEvent t j (.progress p msg)).progress = min 100 (max 0 p) := by
  cases msg <;> rfl

theorem applyEvent_log_progress (t : Int) (j : Job) (m lv : String) :
    (applyEvent t j (.log m lv)).progress = j.progress := rfl

theorem clamp_id {p : ℚ} (h0 : 0 ≤ p) (h1 : p ≤ 100) : min 100 (max 0 p) = p := by
  rw [max_eq_right h0, min_eq_right h1]

theorem getLast?_map (f : α → β) (l : List α) :
    (l.map f).getLast? = l.getLast?.map f := by
  induction l with
  | nil => rfl
  | cons a l ih =>
    cases l with
    | nil => rfl
    | cons b m =>
      show (f a :: f b :: List.map f m).getLast? = _
      rw [List.getLast?_cons_cons, List.getLast?_cons_cons]
      exact ih

theorem chain'_const (c : ℚ) (l : List ℚ) (h : ∀ x ∈ l, x = c) :
    List.Chain' (· ≤ ·) l := by
  induction l with
  | nil => simp
  | cons a l ih =>
    rw [List.chain'_cons']
    refine ⟨?_, ih (fun x hx => h x (List.mem_cons_of_mem a hx))⟩
    intro y hy
    have hya := h y (List.mem_cons_of_mem a (List.mem_of_mem_head? hy))
    have haa := h a (List.mem_cons_self a l)
    rw [hya, haa]

/-- The job states observed through a sequence of callback events: the
progress values are non-decreasing (given chained, in-range reported
values), stay in `[0, 100]`, and the final progress is the last reported
value. -/
theorem scanl_progress (t : Int) :
    ∀ (evs : List JobEvent) (j : Job),
      (∀ v ∈ progVals evs, 0 ≤ v ∧ v ≤ 100) →
      List.Chain' (· ≤ ·) (j.progress :: progVals evs) →
      0 ≤ j.progress → j.progress ≤ 100 →
      List.Chain' (· ≤ ·) ((evs.scanl (applyEvent t) j).map Job.progress) ∧
      (∀ x ∈ evs.scanl (applyEvent t) j, 0 ≤ x.progress ∧ x.progress ≤ 100) ∧
      (j.progress :: progVals evs).getLast? =
        some ((evs.foldl (applyEvent t) j).progress) := by
  intro evs
  induction evs with
  | nil =>
    intro j hb hchain h0 h1
    refine ⟨by simp, ?_, rfl⟩
    intro x hx
    rw [List.scanl_nil] at hx
    simp at hx
    rw [hx]
    exact ⟨h0, h1⟩
  | cons ev es ih =>
    intro j hb hchain h0 h1
    cases ev with
    | progress p msg =>
      have hpv : progVals (JobEvent.progress p msg :: es) = p :: progVals es := rfl
      rw [hpv] at hb hchain
      have hpb : 0 ≤ p ∧ p ≤ 100 := hb p (List.mem_cons_self p _)
      have hjp : (applyEvent t j (.progress p msg)).progress = p := by
        rw [applyEvent_progress, clamp_id hpb.1 hpb.2]
      rw [List.chain'_cons] at hchain
      obtain ⟨hjle, hchain2⟩ := hchain
      have hchain2' : List.Chain' (· ≤ ·)
          ((applyEvent t j (.progress p msg)).progress :: progVals es) := by
        rw [hjp]
        exact hchain2
      obtain ⟨ic, ib, il⟩ := ih (applyEvent t j (.progress p msg))
        (fun v hv => hb v (List.mem_cons_of_mem p hv)) hchain2'
        (by rw [hjp]; exact hpb.1) (by rw [hjp]; exact hpb.2)
      refine ⟨?_, ?_, ?_⟩
      · rw [List.scanl_cons]
        show List.Chain' (· ≤ ·) (j.progress ::
          (es.scanl (applyEvent t) (applyEvent t j (.progress p msg))).map Job.progress)
        rw [List.chain'_cons']
        refine ⟨?_, ic⟩
        intro y hy
        have hxh : (es.scanl (applyEvent t) (applyEvent t j (.progress p msg))).head? =
            some (applyEvent t j (.progress p msg)) := scanl_head? _ _ _
        rw [List.head?_map, hxh] at hy
        simp at hy
        rw [← hy, hjp]
        exact hjle
      · intro x hx
        rw [List.scanl_cons] at hx
        rcases List.mem_cons.mp hx with rfl | hx
        · exact ⟨h0, h1⟩
        · exact ib x hx
      · show (j.progress :: p :: progVals es).getLast? =
          some ((es.foldl (applyEvent t) (applyEvent t j (.progress p msg))).progress)
        rw [List.getLast?_cons_cons]
        nth_rewrite 1 [← hjp]
        exact il
    | log m lv =>
      have hpv : progVals (JobEvent.log m lv :: es) = progVals es := rfl
      rw [hpv] at hb hchain
      have hjp : (applyEvent t j (.log m lv)).progress = j.progress := rfl
      have hchain2 : List.Chain' (· ≤ ·)
          ((applyEvent t j (.log m lv)).progress :: progVals es) := by
        rw [hjp]
        exact hchain
      obtain ⟨ic, ib, il⟩ := ih (applyEvent t j (.log m lv)) hb hchain2
        (by rw [hjp]; exact h0) (by rw [hjp]; exact h1)
      refine ⟨?_, ?_, ?_⟩
      · rw [List.scanl_cons]
        show List.Chain' (· ≤ ·) (j.progress ::
          (es.scanl (applyEvent t) (applyEvent t j (.log m lv))).map Job.progress)
        rw [List.chain'_cons']
        refine ⟨?_, ic⟩
        intro y hy
        have hxh : (es.scanl (applyEvent t) (applyEvent t j (.log m lv))).head? =
            some (applyEvent t j (.log m lv)) := scanl_head? _ _ _
        rw [List.head?_map, hxh] at hy
        simp at hy
        rw [← hy, hjp]
      · intro x hx
        rw [List.scanl_cons] at hx
        rcases List.mem_cons.mp hx with rfl | hx
        · exact ⟨h0, h1⟩
        · exact ib x hx
      · show (j.progress :: progVals es).getLast? =
          some ((es.foldl (applyEvent t) (applyEvent t j (.log m lv))).progress)
        rw [← hjp]
        exact il

theorem runTail_ok_progress (t : Int) (j2 : Job) (r : IndexResult) :
    ∀ x ∈ runTail t j2 (.ok r), x.progress = 100 := by
  have hupd : (updateJob t j2
      { status := some "completed", progress := some 100, result := some r,
        stats := some (completedStats r) }).progress = 100 := by
    unfold updateJob applyUpdates
    rw [if_pos (Or.inl rfl)]
    rfl
  intro x hx
  cases hds : r.deltaStats with
  | some ds =>
    simp only [runTail, hds, List.mem_cons, List.not_mem_nil, or_false] at hx
    rcases hx with rfl | rfl | rfl | rfl
    all_goals exact hupd
  | none =>
    simp only [runTail, hds, List.mem_cons, List.not_mem_nil, or_false] at hx
    rcases hx with rfl | rfl | rfl
    all_goals exact hupd

theorem runTail_error_progress (t : Int) (j2 : Job) (e : String) :
    ∀ x ∈ runTail t j2 (.error e), x.progress = 0 := by
  have hupd : (updateJob t j2
      { status := some "failed", progress := some 0, error := some e }).progress = 0 := by
    unfold updateJob applyUpdates
    rw [if_pos (Or.inr rfl)]
    rfl
  intro x hx
  simp only [runTail, List.mem_cons, List.not_mem_nil, or_false] at hx
  rcases hx with rfl | rfl
  · exact hupd
  · exact hupd

theorem runTail_ok_map_last (t : Int) (j2 : Job) (r : IndexResult) :
    ((runTail t j2 (.ok r)).map Job.progress).getLast? = some 100 := by
  rw [getLast?_map]
  have hne := runTail_ne_nil t j2 (.ok r)
  obtain ⟨x, hx⟩ := Option.ne_none_iff_exists'.mp
    (mt List.getLast?_eq_none_iff.mp hne)
  rw [hx]
  have hmem : x ∈ runTail t j2 (.ok r) := by
    obtain ⟨h, rfl⟩ := List.mem_getLast?_eq_getLast (Option.mem_def.mpr hx)
    exact List.getLast_mem h
  show some x.progress = some 100
  rw [runTail_ok_progress t j2 r x hmem]

/-- C6: the progress values reported over one indexing run are monotonically
non-decreasing; for a job starting at progress 0, a successful run makes the
observed job-progress sequence non-decreasing and ending at 100, while a
failed run leaves the job's final progress at 0 (the coordinator sets it to
0 on failure). -/
theorem claim_C6 (env : IndexEnv) (dirPath projectId excludesText : String)
    (deltaOnly : Bool) (store0 : List StoredDoc) (t : Int) (job : Job)
    (hjob : job.progress = 0) :
    List.Chain' (· ≤ ·)
      (progVals (indexDirectory env dirPath projectId excludesText deltaOnly
        store0).events) ∧
    (∀ r, (indexDirectory env dirPath projectId excludesText deltaOnly
        store0).result = .ok r →
      List.Chain' (· ≤ ·)
        ((runIndexJob t job (indexDirectory env dirPath projectId excludesText
            deltaOnly store0).events
          (indexDirectory env dirPath projectId excludesText deltaOnly
            store0).result).1.map Job.progress) ∧
      ((runIndexJob t job (indexDirectory env dirPath projectId excludesText
          deltaOnly store0).events
        (indexDirectory env dirPath projectId excludesText deltaOnly
          store0).result).1.map Job.progress).getLast? = some 100) ∧
    (∀ e, (indexDirectory env dirPath projectId excludesText deltaOnly
        store0).result = .error e →
      ∀ jf, (runIndexJob t job (indexDirectory env dirPath projectId excludesText
          deltaOnly store0).events
        (indexDirectory env dirPath projectId excludesText deltaOnly
          store0).result).1.getLast? = some jf →
        jf.progress = 0) := by
  obtain ⟨hchain, hbounds, hlast100⟩ :=
    indexDirectory_prog env dirPath projectId excludesText deltaOnly store0
  refine ⟨hchain, ?_, ?_⟩
  · intro r hr
    have hj1 : (updateJob t job { status := some "running" }).progress =
        job.progress := by
      unfold updateJob applyUpdates
      rw [if_neg (by decide)]
      rfl
    have hchain0 : List.Chain' (· ≤ ·)
        ((updateJob t job { status := some "running" }).progress ::
          progVals (indexDirectory env dirPath projectId excludesText deltaOnly
            store0).events) := by
      rw [hj1, hjob]
      rw [List.chain'_cons']
      refine ⟨?_, hchain⟩
      intro y hy
      exact (hbounds y (List.mem_of_mem_head? hy)).1
    obtain ⟨hsc, hsb, -⟩ := scanl_progress t
      (indexDirectory env dirPath projectId excludesText deltaOnly store0).events
      (updateJob t job { status := some "running" }) hbounds hchain0
      (by rw [hj1, hjob]) (by rw [hj1, hjob]; norm_num)
    constructor
    · rw [runIndexJob_trace, hr, List.map_append, List.chain'_append]
      refine ⟨hsc, ?_, ?_⟩
      · refine chain'_const 100 _ ?_
        intro x hx
        obtain ⟨jx, hjx, rfl⟩ := List.mem_map.mp hx
        exact runTail_ok_progress t _ r jx hjx
      · intro x hx y hy
        have hxm : x ∈ ((indexDirectory env dirPath projectId excludesText deltaOnly
            store0).events.scanl (applyEvent t)
            (updateJob t job { status := some "running" })).map Job.progress := by
          obtain ⟨h, rfl⟩ := List.mem_getLast?_eq_getLast hx
          exact List.getLast_mem h
        obtain ⟨jx, hjx, rfl⟩ := List.mem_map.mp hxm
        have hym := List.mem_of_mem_head? hy
        obtain ⟨jy, hjy, rfl⟩ := List.mem_map.mp hym
        rw [runTail_ok_progress t _ r jy hjy]
        exact (hsb jx hjx).2
    · rw [runIndexJob_trace, hr, List.map_append]
      have hne : (runTail t ((indexDirectory env dirPath projectId excludesText
          deltaOnly store0).events.foldl (applyEvent t)
          (updateJob t job { status := some "running" }))
          (Except.ok r)).map Job.progress ≠ [] := by
        intro h
        exact runTail_ne_nil t _ (.ok r) (List.map_eq_nil_iff.mp h)
      rw [List.getLast?_append_of_ne_nil _ hne]
      exact runTail_ok_map_last t _ r
  · intro e hr jf hlast
    rw [hr] at hlast
    exact runTail_error_progress t _ e jf
      (runIndexJob_last_mem t job _ (.error e) jf hlast)

def c6env : IndexEnv :=
  ⟨.ok ["a.js"], fun _ => .ok ⟨0, "x"⟩, fun _ => .ok [1], fun _ => "h",
   .ok (), .ok ()⟩

theorem claim_C6_witness :
    (createJob 0 1 "index" "p" "").progress = 0 ∧
    List.Chain' (· ≤ ·)
      (progVals (indexDirectory c6env "d" "p" "ex" false []).events) :=
  ⟨rfl, (claim_C6 c6env "d" "p" "ex" false [] 0 (createJob 0 1 "index" "p" "") rfl).1⟩

end VectorMCP
